import Mathlib

/-!
Shallow embedding of the Cluster Load Balancing Optimizer (src/main.cpp).

The program keeps a graph of at most `MAXN` nodes in global matrices
(`dist`, `next_hop`, `adj_bandwidth`), runs Floyd–Warshall, a greedy
allocator, a simulated-annealing optimizer and a bandwidth-constrained
migration simulator.  The embedding below translates each of those
functions into Lean, component by component:

* matrices become total functions `Nat → Nat → Nat` (the C++ globals are
  zero-initialised arrays; `init` only writes the `[1,N]` square, and the
  algorithms only ever read that square, so the functional model fixes the
  same values on the square and is only quoted there);
* machine integers become `Nat` / `Int` (no intermediate value of the
  program can overflow `int` / `long long` on well-formed inputs: all
  `dist` entries stay `≤ INF = 10^9` by construction);
* the optimizer's random draws (`rand() % T`, `rand() % N`, the Metropolis
  comparison against `rand()/RAND_MAX`) are supplied as an explicit list of
  `SAMove` oracles, one per executed loop iteration, and the wall-clock
  budget becomes the length of that list;
* the `double current_temp` is carried as an exact fraction
  `tempN / tempD` of naturals: cooling multiplies by `999/1000`, the reset
  test `current_temp < 1e-8` becomes `tempN * 10^8 < tempD`, and the reset
  value `T_start * 0.5 = 1000` is exact in both models;
* the unbounded loops of `reconstructPath` and `simulateMigration` take an
  explicit fuel argument (the simulation loop is run with fuel
  `simMeasure + 1`, which is proved to be enough below).
-/

namespace ClusterLB

/-- Sentinel for unreachable pairs, `const int INF = 1e9` in main.cpp. -/
def INF : Nat := 1000000000

/-- Node ids used by every loop of the program: `1, 2, ..., N`. -/
def rng (N : Nat) : List Nat := List.range' 1 N

/-- A square matrix of naturals indexed by node ids. -/
def Mat : Type := Nat → Nat → Nat

/-- Pointwise update of a matrix at one cell. -/
def update2 (f : Mat) (i j v : Nat) : Mat :=
  fun a b => if a = i ∧ b = j then v else f a b

/-- One parsed link line `u v c b` of the input. -/
structure Edge where
  u : Nat
  v : Nat
  cost : Nat
  bw : Nat
deriving DecidableEq, Repr

/-- One parsed task line `tid s_node dem` of the input. -/
structure TaskSpec where
  id : Nat
  start_node : Nat
  demand : Nat
deriving DecidableEq, Repr

/-- The parsed input handed to the core: node count, capacities, links and
task specs (textual parsing is out of scope per the spec). -/
structure Input where
  N : Nat
  cap : Nat → Nat
  edges : List Edge
  specs : List TaskSpec

/-- The `Task` struct of main.cpp, planning fields plus simulation state. -/
structure Task where
  id : Nat
  start_node : Nat
  demand : Nat
  end_node : Nat
  migration_cost : Nat
  path : List Nat
  path_idx : Nat
  current_pos_node : Nat
  finished : Bool
deriving DecidableEq, Repr, Inhabited

/-- The `logs` entries `{time, task_id, from, to}` of main.cpp. -/
structure LogEntry where
  time : Nat
  task_id : Nat
  from_node : Nat
  to_node : Nat
deriving DecidableEq, Repr

/-- The `dist` matrix right after `init()`: 0 on the diagonal, `INF`
elsewhere. -/
def dist0 : Mat := fun i j => if i = j then 0 else INF

/-- The `next_hop` matrix right after `init()`: the target itself. -/
def nh0 : Mat := fun _ j => j

/-- The `adj_bandwidth` matrix right after `init()`: all zero. -/
def adj0 : Mat := fun _ _ => 0

/-- Processing one link line of `readInput`: store the bandwidth in both
directions (last write wins) and keep the cheapest cost seen so far. -/
def applyEdge (S : Mat × Mat) (e : Edge) : Mat × Mat :=
  let adj := update2 (update2 S.2 e.u e.v e.bw) e.v e.u e.bw
  let d := if e.cost < S.1 e.u e.v then
             update2 (update2 S.1 e.u e.v e.cost) e.v e.u e.cost
           else S.1
  (d, adj)

/-- The `(dist, adj_bandwidth)` matrices after `readInput` has folded all
link lines over the `init()` state. -/
def readEdges (es : List Edge) : Mat × Mat := es.foldl applyEdge (dist0, adj0)

/-- Task construction in `readInput`:
`tasks.push_back({tid, s_node, dem, s_node, 0, {}, 0, s_node, false})`. -/
def mkTask (s : TaskSpec) : Task :=
  { id := s.id, start_node := s.start_node, demand := s.demand,
    end_node := s.start_node, migration_cost := 0, path := [],
    path_idx := 0, current_pos_node := s.start_node, finished := false }

/-- The `dist`/`next_hop` pair mutated by `floydWarshall`. -/
structure FWState where
  d : Mat
  nh : Mat

/-- The innermost statement of `floydWarshall`: relax `dist[i][j]` through
pivot `k` and redirect `next_hop[i][j]` on success. -/
def relax (k : Nat) (S : FWState) (i j : Nat) : FWState :=
  if S.d i k ≠ INF ∧ S.d k j ≠ INF ∧ S.d i k + S.d k j < S.d i j then
    { d := update2 S.d i j (S.d i k + S.d k j),
      nh := update2 S.nh i j (S.nh i k) }
  else S

/-- The `j` loop of `floydWarshall` for a fixed pivot `k` and row `i`. -/
def relaxRow (N k : Nat) (S : FWState) (i : Nat) : FWState :=
  (rng N).foldl (fun T j => relax k T i j) S

/-- The `i` loop of `floydWarshall` for a fixed pivot `k`. -/
def pivot (N : Nat) (S : FWState) (k : Nat) : FWState :=
  (rng N).foldl (relaxRow N k) S

/-- The full triple loop of `floydWarshall`. -/
def floydWarshall (N : Nat) (S : FWState) : FWState :=
  (rng N).foldl (pivot N) S

/-- The direct-link cost matrix the program has right before
`floydWarshall` runs (diagonal 0, collapsed minimum edge costs). -/
def baseDist (inp : Input) : Mat := (readEdges inp.edges).1

/-- The bandwidth adjacency matrix of the program. -/
def bandwidth (inp : Input) : Mat := (readEdges inp.edges).2

/-- The `dist`/`next_hop` state after `floydWarshall()` has run in `main`. -/
def fwResult (inp : Input) : FWState :=
  floydWarshall inp.N { d := baseDist inp, nh := nh0 }

/-- The task vector of the program right after `readInput`. -/
def initialTasks (inp : Input) : List Task := inp.specs.map mkTask

/-- Shared mutable allocation state: the task vector together with the
per-node `current_usage` counters (an `int` in C++, hence `Int` here:
`optimizeAllocationSA` can drive a counter negative). -/
structure Alloc where
  tasks : List Task
  usage : Nat → Int

/-- One target of the scan in `solveAllocationGreedy`'s inner loop: skip
the target if unreachable, and otherwise adopt it when it is feasible and
strictly cheaper than the best seen so far (`best_node == -1 || cost <
min_cost`). -/
def pickStep (d : Mat) (cap : Nat → Nat) (usage : Nat → Int) (t : Task)
    (best : Option (Nat × Nat)) (target : Nat) : Option (Nat × Nat) :=
  if d t.start_node target = INF then best
  else if usage target + (t.demand : Int) ≤ (cap target : Int) then
    let cost := d t.start_node target * t.demand
    match best with
    | none => some (target, cost)
    | some (b, m) => if cost < m then some (target, cost) else some (b, m)
  else best

/-- The target scan of `solveAllocationGreedy` for one task: walk the node
ids in ascending order, skip unreachable targets, keep the feasible target
with the strictly smallest `dist * demand` (so the first, i.e. lowest-id,
minimiser wins), returning the chosen node and its cost. -/
def pickBest (N : Nat) (d : Mat) (cap : Nat → Nat) (usage : Nat → Int)
    (t : Task) : Option (Nat × Nat) :=
  (rng N).foldl (pickStep d cap usage t) none

/-- Processing one task (by index) in `solveAllocationGreedy`: commit the
chosen node's usage and record the assignment, or leave the task untouched
when no feasible node exists. -/
def greedyStep (N : Nat) (d : Mat) (cap : Nat → Nat) (A : Alloc)
    (idx : Nat) : Alloc :=
  let t := A.tasks.getD idx default
  match pickBest N d cap A.usage t with
  | some (b, c) =>
      { tasks := A.tasks.set idx { t with end_node := b, migration_cost := c },
        usage := fun n => if n = b then A.usage n + (t.demand : Int) else A.usage n }
  | none => A

/-- The processing order of `solveAllocationGreedy`: task indices sorted by
descending demand (`std::sort` with comparator `demand a > demand b` makes
no promise about ties, so `insertionSort` realises one valid execution of
that unstable sort). -/
def greedyOrder (ts : List Task) : List Nat :=
  (List.range ts.length).insertionSort
    (fun a b => (ts.getD b default).demand ≤ (ts.getD a default).demand)

/-- The whole of `solveAllocationGreedy`: reset the usage counters, then
process every task index in descending-demand order. -/
def solveAllocationGreedy (N : Nat) (d : Mat) (cap : Nat → Nat)
    (ts : List Task) : Alloc :=
  (greedyOrder ts).foldl (greedyStep N d cap) { tasks := ts, usage := fun _ => 0 }

/-- The allocation state after the Planner has run in `main`. -/
def greedyAlloc (inp : Input) : Alloc :=
  solveAllocationGreedy inp.N (fwResult inp).d inp.cap (initialTasks inp)

/-- The `calculateTotalCost` helper: `Σ dist[start][end] * demand` over all
tasks, as a `long long`. -/
def totalCost (d : Mat) (ts : List Task) : Int :=
  (ts.map (fun t => (d t.start_node t.end_node : Int) * (t.demand : Int))).sum

/-- The random draws one iteration of `optimizeAllocationSA` consumes:
the raw values behind `rand() % T` and `rand() % N`, and the outcome of
the Metropolis comparison `exp(-Δ/temp) > rand()/RAND_MAX` (a strictly
positive probability compared against a uniform draw, so both outcomes are
realisable and a boolean oracle captures every concrete run). -/
structure SAMove where
  tpick : Nat
  npick : Nat
  accept : Bool
deriving DecidableEq, Repr

/-- The optimizer's working state: current tasks and usage counters,
incremental current cost, the best-ever snapshot, and the temperature as
an exact fraction `tempN / tempD`. -/
structure SAState where
  tasks : List Task
  usage : Nat → Int
  curCost : Int
  bestCost : Int
  best : List Nat
  tempN : Nat
  tempD : Nat

/-- State of `optimizeAllocationSA` right before its loop: current cost
from `calculateTotalCost`, best snapshot = current assignment,
`current_temp = T_start = 2000`. -/
def saInit (d : Mat) (A : Alloc) : SAState :=
  { tasks := A.tasks, usage := A.usage,
    curCost := totalCost d A.tasks, bestCost := totalCost d A.tasks,
    best := A.tasks.map (fun t => t.end_node),
    tempN := 2000, tempD := 1 }

/-- End-of-iteration temperature update of `optimizeAllocationSA`:
`current_temp *= 0.999; if (current_temp < 1e-8) current_temp = 1000;`
on the exact-fraction representation. -/
def coolTemp (s : SAState) : SAState :=
  let n := s.tempN * 999
  let dd := s.tempD * 1000
  if n * 100000000 < dd then { s with tempN := 1000, tempD := 1 }
  else { s with tempN := n, tempD := dd }

/-- The acceptance block of one `optimizeAllocationSA` iteration (the body
of the Metropolis `if`): commit the usage transfer, overwrite the task's
assignment, add the delta to the current cost, and snapshot the assignment
whenever the new current cost beats the best-ever cost. -/
def saCommit (d : Mat) (s : SAState) (tIdx : Nat) (t : Task) (newN : Nat)
    (diff : Int) : SAState :=
  let usage2 : Nat → Int := fun n =>
    if n = t.end_node then s.usage n - (t.demand : Int)
    else if n = newN then s.usage n + (t.demand : Int)
    else s.usage n
  let tasks2 := s.tasks.set tIdx
    { t with end_node := newN,
             migration_cost := d t.start_node newN * t.demand }
  let cur2 := s.curCost + diff
  if cur2 < s.bestCost then
    { tasks := tasks2, usage := usage2, curCost := cur2,
      bestCost := cur2, best := tasks2.map (fun x => x.end_node),
      tempN := s.tempN, tempD := s.tempD }
  else
    { tasks := tasks2, usage := usage2, curCost := cur2,
      bestCost := s.bestCost, best := s.best,
      tempN := s.tempN, tempD := s.tempD }

/-- The capacity check and Metropolis test of one `optimizeAllocationSA`
iteration; a rejection on either leaves the state untouched (the
temperature is cooled by the caller in both cases). -/
def saTry (d : Mat) (cap : Nat → Nat) (s : SAState) (tIdx : Nat)
    (newN : Nat) (acc : Bool) : SAState :=
  let t := s.tasks.getD tIdx default
  if s.usage newN + (t.demand : Int) ≤ (cap newN : Int) then
    let diff : Int :=
      (d t.start_node newN : Int) * (t.demand : Int) -
      (d t.start_node t.end_node : Int) * (t.demand : Int)
    if diff < 0 ∨ acc then saCommit d s tIdx t newN diff else s
  else s

/-- One iteration of the `while (true)` loop of `optimizeAllocationSA`.
Note the `continue` for a duplicate or unreachable target returns without
reaching the cooling statement, exactly as in the C++ control flow; the
capacity-rejected and Metropolis-rejected branches do fall through to it. -/
def saIter (N : Nat) (d : Mat) (cap : Nat → Nat) (s : SAState)
    (mv : SAMove) : SAState :=
  let tIdx := mv.tpick % s.tasks.length
  let t := s.tasks.getD tIdx default
  let newN := mv.npick % N + 1
  if newN = t.end_node ∨ d t.start_node newN = INF then s
  else coolTemp (saTry d cap s tIdx newN mv.accept)

/-- The optimizer loop: fold the iteration over the oracle stream (the
wall-clock budget decides its length, never its content). -/
def saRun (N : Nat) (d : Mat) (cap : Nat → Nat) (s : SAState)
    (moves : List SAMove) : SAState :=
  moves.foldl (saIter N d cap) s

/-- Usage counters recomputed from scratch from a task vector, as the
restore epilogue of `optimizeAllocationSA` does. -/
def recomputeUsage (ts : List Task) (n : Nat) : Int :=
  (ts.map (fun t => if t.end_node = n then (t.demand : Int) else 0)).sum

/-- The restore epilogue of `optimizeAllocationSA`: write the best-ever
snapshot back into the tasks, refresh `migration_cost`, and rebuild every
`current_usage` from zero. -/
def restoreBest (d : Mat) (s : SAState) : Alloc :=
  let ts := List.zipWith
    (fun t b => { t with end_node := b, migration_cost := d t.start_node b * t.demand })
    s.tasks s.best
  { tasks := ts, usage := recomputeUsage ts }

/-- The whole of `optimizeAllocationSA` (modulo seeding and timing): run
the annealing loop from the greedy allocation, then restore the best. -/
def optimizeAllocationSA (N : Nat) (d : Mat) (cap : Nat → Nat) (A : Alloc)
    (moves : List SAMove) : Alloc :=
  restoreBest d (saRun N d cap (saInit d A) moves)

/-- The allocation after both Planner and Optimizer have run in `main`. -/
def finalAlloc (inp : Input) (moves : List SAMove) : Alloc :=
  optimizeAllocationSA inp.N (fwResult inp).d inp.cap (greedyAlloc inp) moves

/-- The `while (curr != t.end_node)` loop of `reconstructPath`, with fuel
standing in for the unbounded C++ loop: the successive `next_hop` nodes
from `curr` toward `e`. -/
def followNh (nh : Mat) (e : Nat) : Nat → Nat → List Nat
  | _, 0 => []
  | curr, fuel + 1 =>
    if curr = e then []
    else
      let nx := nh curr e
      nx :: followNh nh e nx fuel

/-- The `reconstructPath` function: a no-op when the task is already in
place, otherwise push the successive next hops onto the task's (possibly
non-empty) stored path. -/
def reconstructPath (nh : Mat) (fuel : Nat) (t : Task) : Task :=
  if t.start_node = t.end_node then t
  else { t with path := t.path ++ followNh nh t.end_node t.start_node fuel }

/-- Per-task setup at the top of `simulateMigration`. -/
def setupTask (nh : Mat) (fuel : Nat) (t : Task) : Task :=
  if t.start_node ≠ t.end_node then
    { reconstructPath nh fuel t with
      path_idx := 0, current_pos_node := t.start_node, finished := false }
  else { t with finished := true }

/-- State of the simulation loop: task vector, clock, accumulated log. -/
structure SimState where
  tasks : List Task
  time : Nat
  logs : List LogEntry
deriving Repr

/-- The undirected link key `(u < v) ? u*1000+v : v*1000+u` of
`simulateMigration`. -/
def linkKey (u v : Nat) : Nat := if u < v then u * 1000 + v else v * 1000 + u

/-- The first inner loop of a simulation step: scan the task indices in
order, and grant a move to every unfinished task whose next link still has
bandwidth left this step (`link_usage[key] < bw`). -/
def collectMoves (adj : Mat) (tasks : List Task) :
    List Nat → (Nat → Nat) → List Nat
  | [], _ => []
  | i :: rest, lu =>
    let t := tasks.getD i default
    if t.finished then collectMoves adj tasks rest lu
    else
      let u := t.current_pos_node
      let v := t.path.getD t.path_idx 0
      if lu (linkKey u v) < adj u v then
        i :: collectMoves adj tasks rest
          (fun k => if k = linkKey u v then lu k + 1 else lu k)
      else collectMoves adj tasks rest lu

/-- The second inner loop of a simulation step, applied to one granted
task index: log the crossing, advance the task one hop, and mark it
finished when its path is exhausted. -/
def applyMove (time : Nat) (st : List Task × List LogEntry) (i : Nat) :
    List Task × List LogEntry :=
  let t := st.1.getD i default
  let toN := t.path.getD t.path_idx 0
  let t2 := { t with current_pos_node := toN, path_idx := t.path_idx + 1,
                     finished := if t.path.length ≤ t.path_idx + 1 then true
                                 else t.finished }
  (st.1.set i t2,
   st.2 ++ [{ time := time, task_id := t.id,
              from_node := t.current_pos_node, to_node := toN }])

/-- Whether any task is still unfinished (the loop guard recomputed at the
top of each `simulateMigration` step). -/
def anyUnfinished (ts : List Task) : Bool := ts.any (fun t => !t.finished)

/-- The `while (any_unfinished)` loop of `simulateMigration`: advance the
clock, grant moves, and either break silently when nothing moved or apply
the moves and continue.  Fuel stands in for the unbounded C++ loop. -/
def simLoop (adj : Mat) : Nat → SimState → SimState
  | 0, st => st
  | fuel + 1, st =>
    if anyUnfinished st.tasks then
      let time2 := st.time + 1
      let moved := collectMoves adj st.tasks (List.range st.tasks.length) (fun _ => 0)
      if moved = [] then { st with time := time2 }
      else
        let applied := moved.foldl (applyMove time2) (st.tasks, st.logs)
        simLoop adj fuel { tasks := applied.1, time := time2, logs := applied.2 }
    else st

/-- Total number of hops still to travel: every productive simulation step
strictly decreases it, so `simMeasure + 1` units of fuel always suffice. -/
def simMeasure (ts : List Task) : Nat :=
  (ts.map (fun t => if t.finished then 0 else t.path.length - t.path_idx)).sum

/-- The whole of `simulateMigration`: set every task up (reconstructing
paths with the given fuel), then run the step loop to completion. -/
def simulateMigration (adj nh : Mat) (fuel : Nat) (ts : List Task) : SimState :=
  let ts0 := ts.map (setupTask nh fuel)
  simLoop adj (simMeasure ts0 + 1) { tasks := ts0, time := 0, logs := [] }

/-- The simulation state at the end of `main` (path-reconstruction fuel
included as the modelling artifact for the unbounded C++ loops). -/
def finalSim (inp : Input) (moves : List SAMove) (fuel : Nat) : SimState :=
  simulateMigration (bandwidth inp) (fwResult inp).nh fuel
    (finalAlloc inp moves).tasks

/-- Number of crossings of the unordered link `{u, v}` recorded at time
step `t` in a log (the quantity the bandwidth cap is about). -/
def crossCount (logs : List LogEntry) (t u v : Nat) : Nat :=
  (logs.filter (fun l => decide (l.time = t ∧
    ((l.from_node = u ∧ l.to_node = v) ∨
     (l.from_node = v ∧ l.to_node = u))))).length

/-- Diagonal-zero property of a matrix. -/
def DiagZero (m : Mat) : Prop := ∀ x, m x x = 0

/-- Every entry bounded by the `INF` sentinel. -/
def LeINF (m : Mat) : Prop := ∀ x y, m x y ≤ INF

/-- The undirected-link relation of the input: `a` and `b` are joined by
some declared link line. -/
def LinkPred (es : List Edge) (a b : Nat) : Prop :=
  ∃ e ∈ es, (e.u = a ∧ e.v = b) ∨ (e.u = b ∧ e.v = a)

/-- Total link cost along a node sequence, each step priced by the
collapsed direct-cost matrix. -/
def pathCost (B : Mat) : List Nat → Nat
  | [] => 0
  | [_] => 0
  | a :: b :: r => B a b + pathCost B (b :: r)

/-- The deterministic trace of `reconstructPath`'s while loop: starting
at `i` and repeatedly moving to `next_hop[·][j]`, the listed nodes are
visited and the trace ends at `j`. -/
inductive NhReaches (nh : Mat) (j : Nat) : Nat → List Nat → Prop
  | done : NhReaches nh j j []
  | step (i : Nat) (p : List Nat) : i ≠ j → NhReaches nh j (nh i j) p →
      NhReaches nh j i (nh i j :: p)

/-- The value `dist[i][j]` holds after the relaxation of pair `(i, j)`
through pivot `k` runs on state `S` (the guarded in-place update of
`floydWarshall`, expressed functionally). -/
def relaxVal (k : Nat) (S : FWState) (i j : Nat) : Nat :=
  if S.d i k ≠ INF ∧ S.d k j ≠ INF ∧ S.d i k + S.d k j < S.d i j
  then S.d i k + S.d k j else S.d i j

/-- The value `next_hop[i][j]` holds after the relaxation of pair
`(i, j)` through pivot `k` runs on state `S`. -/
def relaxNh (k : Nat) (S : FWState) (i j : Nat) : Nat :=
  if S.d i k ≠ INF ∧ S.d k j ≠ INF ∧ S.d i k + S.d k j < S.d i j
  then S.nh i k else S.nh i j

/-- Partial triangle inequality: `dist` is closed under going through any
already-processed pivot of `K`. -/
def TriK (N : Nat) (S : FWState) (K : List Nat) : Prop :=
  ∀ k ∈ K, ∀ i ∈ rng N, ∀ j ∈ rng N, S.d i j ≤ S.d i k + S.d k j

/-- Routing-table soundness: for every finite in-range off-diagonal
entry, the recorded next hop is an in-range neighbour over a finite
direct link, and hop cost plus remaining distance never exceeds the
entry. -/
def NhInv (N : Nat) (B : Mat) (S : FWState) : Prop :=
  ∀ i ∈ rng N, ∀ j ∈ rng N, i ≠ j → S.d i j ≠ INF →
    S.nh i j ∈ rng N ∧ S.nh i j ≠ i ∧ B i (S.nh i j) ≠ INF ∧
    B i (S.nh i j) + S.d (S.nh i j) j ≤ S.d i j

/-- The running invariant of `floydWarshall`: zero diagonal, entries only
shrink below the direct costs, the `INF` cap, and routing soundness. -/
def GoodInv (N : Nat) (B : Mat) (S : FWState) : Prop :=
  DiagZero S.d ∧ (∀ i j, S.d i j ≤ B i j) ∧ (∀ i j, S.d i j ≤ INF) ∧
  NhInv N B S

/-! Concrete instances used by witnesses and counterexamples. -/

/-- A 2-node input: one link of cost 1 and bandwidth 1, one unit task on
node 1, ample capacity everywhere. -/
def inpW : Input :=
  { N := 2, cap := fun _ => 5,
    edges := [{ u := 1, v := 2, cost := 1, bw := 1 }],
    specs := [{ id := 1, start_node := 1, demand := 1 }] }

/-- A 1-node input whose only task (demand 5) exceeds the node's capacity
(0), so the Planner's infeasible-left-in-place policy fires. -/
def inpInfeas : Input :=
  { N := 1, cap := fun _ => 0,
    edges := [], specs := [{ id := 1, start_node := 1, demand := 5 }] }

/-- A 2-node input whose only link has bandwidth 0, while capacity forces
the single task off node 1: the simulation must stall on step 1. -/
def inpStuck : Input :=
  { N := 2, cap := fun n => if n = 1 then 0 else 5,
    edges := [{ u := 1, v := 2, cost := 1, bw := 0 }],
    specs := [{ id := 1, start_node := 1, demand := 1 }] }

/-- Shorthand for the distance matrix of `inpInfeas`. -/
def dInf : Mat := (fwResult inpInfeas).d

/-- The optimizer state of `inpInfeas` right before the annealing loop. -/
def sInf : SAState := saInit dInf (greedyAlloc inpInfeas)

/-- A draw whose target node equals the current assignment (on `inpInfeas`
every draw does), so the `continue` path is taken. -/
def mvSkip : SAMove := { tpick := 0, npick := 0, accept := false }

/-- Shorthand for the distance matrix of `inpW`. -/
def dW : Mat := (fwResult inpW).d

/-- Shorthand for the routing table of `inpW`. -/
def nhW : Mat := (fwResult inpW).nh

/-- The optimizer state of `inpW` right before the annealing loop. -/
def sW : SAState := saInit dW (greedyAlloc inpW)

/-- A draw proposing node 2 for the task currently on node 1 of `inpW`:
it passes the duplicate and reachability guards, so the iteration cools. -/
def mvCool : SAMove := { tpick := 0, npick := 1, accept := false }

/-- A task already at its target, for the degenerate reconstruction case. -/
def tSame : Task := mkTask { id := 1, start_node := 1, demand := 1 }

/-- A task routed from node 1 to node 2 of `inpW`, as the Simulator
prepares one. -/
def tMove : Task := { tSame with end_node := 2 }

/-! Derived predicates and counters the verification states its claims with. -/

/-- Cost of a stored assignment (the `best_assignment` vector) against a
task list, matching the restore epilogue's recomputation. -/
def assignCost (d : Mat) (ts : List Task) (asn : List Nat) : Int :=
  (List.zipWith (fun t b => (d t.start_node b : Int) * (t.demand : Int)) ts asn).sum

/-- Cost bookkeeping invariant of the annealing loop: the incremental
current cost equals the recomputed cost of the working assignment, the
best-ever cost equals the cost of the best-ever snapshot, snapshot and
task vector have equal length, and best never exceeds current. -/
def SAInv (d : Mat) (s : SAState) : Prop :=
  s.curCost = totalCost d s.tasks ∧
  s.best.length = s.tasks.length ∧
  s.bestCost = assignCost d s.tasks s.best ∧
  s.bestCost ≤ s.curCost

/-- Every task's assignment is reachable from its start node. -/
def ReachTasks (d : Mat) (ts : List Task) : Prop :=
  ∀ t ∈ ts, d t.start_node t.end_node ≠ INF

/-- Reachability invariant of the annealing loop: every current
assignment and every snapshot entry is reachable. -/
def SAReach (d : Mat) (s : SAState) : Prop :=
  ReachTasks d s.tasks ∧
  List.Forall₂ (fun t b => d t.start_node b ≠ INF) s.tasks s.best

/-- Usage of node `n` under a stored assignment vector, demand taken from
the task list (what the restore epilogue charges to each node). -/
def assignUsage (ts : List Task) (asn : List Nat) (n : Nat) : Int :=
  (List.zipWith (fun t b => if b = n then (t.demand : Int) else 0) ts asn).sum

/-- Capacity bookkeeping invariant of the annealing loop, available when
the Planner placed every task (its counters then account for every
demand): the counters match a from-scratch recomputation, they respect
all capacities, and so does the best-ever snapshot. -/
def SACap (cap : Nat → Nat) (s : SAState) : Prop :=
  (∀ n, s.usage n = recomputeUsage s.tasks n) ∧
  (∀ n, s.usage n ≤ (cap n : Int)) ∧
  s.best.length = s.tasks.length ∧
  (∀ n, assignUsage s.tasks s.best n ≤ (cap n : Int))

/-- A target node is feasible for a task exactly when the scan of
`solveAllocationGreedy` would consider it: reachable from the task's
start, and with room for the task's demand. -/
def Feasible (d : Mat) (cap : Nat → Nat) (usage : Nat → Int) (t : Task)
    (n : Nat) : Prop :=
  d t.start_node n ≠ INF ∧ usage n + (t.demand : Int) ≤ (cap n : Int)

/-- The log entry one granted move of a step produces, as pushed inside
`simulateMigration`'s second inner loop. -/
def stepLog (time : Nat) (tasks : List Task) (i : Nat) : LogEntry :=
  { time := time, task_id := (tasks.getD i default).id,
    from_node := (tasks.getD i default).current_pos_node,
    to_node := (tasks.getD i default).path.getD (tasks.getD i default).path_idx 0 }

/-- Number of granted moves in a step that cross the unordered pair
`{u, v}`, measured against the task vector the step was collected from. -/
def moveCnt (tasks : List Task) (moved : List Nat) (u v : Nat) : Nat :=
  (moved.filter (fun i => decide (
    ((tasks.getD i default).current_pos_node = u ∧
     (tasks.getD i default).path.getD (tasks.getD i default).path_idx 0 = v) ∨
    ((tasks.getD i default).current_pos_node = v ∧
     (tasks.getD i default).path.getD (tasks.getD i default).path_idx 0 = u)))).length

/-! Generic helper lemmas. -/

theorem foldl_inv {α β : Type} (f : β → α → β) (P : β → Prop)
    (l : List α) (b : β) (hb : P b)
    (hf : ∀ x a, a ∈ l → P x → P (f x a)) : P (l.foldl f b) := by
  induction l generalizing b with
  | nil => exact hb
  | cons a tl ih =>
    exact ih _ (hf b a (by simp) hb)
      (fun x a2 ha2 hx => hf x a2 (by simp [ha2]) hx)

/-! Temperature bookkeeping lemmas for the optimizer. -/

theorem coolTemp_tasks (s : SAState) : (coolTemp s).tasks = s.tasks := by
  unfold coolTemp; dsimp only; split <;> rfl

theorem coolTemp_usage (s : SAState) : (coolTemp s).usage = s.usage := by
  unfold coolTemp; dsimp only; split <;> rfl

theorem coolTemp_curCost (s : SAState) : (coolTemp s).curCost = s.curCost := by
  unfold coolTemp; dsimp only; split <;> rfl

theorem coolTemp_bestCost (s : SAState) : (coolTemp s).bestCost = s.bestCost := by
  unfold coolTemp; dsimp only; split <;> rfl

theorem coolTemp_best (s : SAState) : (coolTemp s).best = s.best := by
  unfold coolTemp; dsimp only; split <;> rfl

theorem coolTemp_tempN (s : SAState) :
    (coolTemp s).tempN =
      if s.tempN * 999 * 100000000 < s.tempD * 1000 then 1000
      else s.tempN * 999 := by
  unfold coolTemp; dsimp only; split <;> simp_all

theorem coolTemp_tempD (s : SAState) :
    (coolTemp s).tempD =
      if s.tempN * 999 * 100000000 < s.tempD * 1000 then 1
      else s.tempD * 1000 := by
  unfold coolTemp; dsimp only; split <;> simp_all

theorem saCommit_tempN (d : Mat) (s : SAState) (tIdx : Nat) (t : Task)
    (newN : Nat) (diff : Int) :
    (saCommit d s tIdx t newN diff).tempN = s.tempN := by
  unfold saCommit; dsimp only; split <;> rfl

theorem saCommit_tempD (d : Mat) (s : SAState) (tIdx : Nat) (t : Task)
    (newN : Nat) (diff : Int) :
    (saCommit d s tIdx t newN diff).tempD = s.tempD := by
  unfold saCommit; dsimp only; split <;> rfl

theorem saTry_tempN (d : Mat) (cap : Nat → Nat) (s : SAState) (tIdx : Nat)
    (newN : Nat) (acc : Bool) :
    (saTry d cap s tIdx newN acc).tempN = s.tempN := by
  unfold saTry; dsimp only; split
  · split
    · exact saCommit_tempN ..
    · rfl
  · rfl

theorem saTry_tempD (d : Mat) (cap : Nat → Nat) (s : SAState) (tIdx : Nat)
    (newN : Nat) (acc : Bool) :
    (saTry d cap s tIdx newN acc).tempD = s.tempD := by
  unfold saTry; dsimp only; split
  · split
    · exact saCommit_tempD ..
    · rfl
  · rfl

/-- The claim of C8, with the cooling restricted to the iterations that
actually reach the cooling statement: a duplicate-target or unreachable
draw hits `continue` and leaves the temperature untouched, while every
iteration that passes those two guards (capacity-rejected,
Metropolis-rejected or accepted alike) multiplies the temperature by
`0.999` and resets it to `T_start * 0.5 = 1000` exactly when it has
dropped below the `1e-8` floor. -/
theorem claim_C8 (N : Nat) (d : Mat) (cap : Nat → Nat) (s : SAState)
    (mv : SAMove) :
    ((mv.npick % N + 1 = (s.tasks.getD (mv.tpick % s.tasks.length) default).end_node ∨
      d (s.tasks.getD (mv.tpick % s.tasks.length) default).start_node
        (mv.npick % N + 1) = INF) →
      (saIter N d cap s mv).tempN = s.tempN ∧
      (saIter N d cap s mv).tempD = s.tempD) ∧
    (¬(mv.npick % N + 1 = (s.tasks.getD (mv.tpick % s.tasks.length) default).end_node ∨
       d (s.tasks.getD (mv.tpick % s.tasks.length) default).start_node
         (mv.npick % N + 1) = INF) →
      (saIter N d cap s mv).tempN =
        (if s.tempN * 999 * 100000000 < s.tempD * 1000 then 1000
         else s.tempN * 999) ∧
      (saIter N d cap s mv).tempD =
        (if s.tempN * 999 * 100000000 < s.tempD * 1000 then 1
         else s.tempD * 1000)) := by
  constructor
  · intro h
    unfold saIter
    dsimp only
    rw [if_pos h]
    exact ⟨rfl, rfl⟩
  · intro h
    unfold saIter
    dsimp only
    rw [if_neg h]
    rw [coolTemp_tempN, coolTemp_tempD, saTry_tempN, saTry_tempD]
    exact ⟨rfl, rfl⟩

/-- Witness for C8: on `inpInfeas` a duplicate-target draw leaves the
temperature at 2000, and on `inpW` a passing draw cools 2000 to
`1998000 / 1000`. -/
theorem claim_C8_witness :
    ((saIter inpInfeas.N dInf inpInfeas.cap sInf mvSkip).tempN = sInf.tempN ∧
     (saIter inpInfeas.N dInf inpInfeas.cap sInf mvSkip).tempD = sInf.tempD) ∧
    ((saIter inpW.N dW inpW.cap sW mvCool).tempN =
       (if sW.tempN * 999 * 100000000 < sW.tempD * 1000 then 1000
        else sW.tempN * 999) ∧
     (saIter inpW.N dW inpW.cap sW mvCool).tempD =
       (if sW.tempN * 999 * 100000000 < sW.tempD * 1000 then 1
        else sW.tempD * 1000)) :=
  ⟨(claim_C8 inpInfeas.N dInf inpInfeas.cap sInf mvSkip).1 (by decide),
   (claim_C8 inpW.N dW inpW.cap sW mvCool).2 (by decide)⟩

/-- Counterexample for C8 as frozen: on `inpInfeas` the (only possible)
draw proposes the task's current node, the iteration hits `continue`, and
the temperature stays at 2000/1 — it is neither multiplied by the cooling
factor (2000000 ≠ 1998000 after cross-multiplication) nor reset. -/
theorem claim_C8_cx :
    ((saIter inpInfeas.N dInf inpInfeas.cap sInf mvSkip).tempN = 2000 ∧
     (saIter inpInfeas.N dInf inpInfeas.cap sInf mvSkip).tempD = 1) ∧
    (saIter inpInfeas.N dInf inpInfeas.cap sInf mvSkip).tempN *
        (sInf.tempD * 1000) ≠
      sInf.tempN * 999 *
        (saIter inpInfeas.N dInf inpInfeas.cap sInf mvSkip).tempD ∧
    ¬((saIter inpInfeas.N dInf inpInfeas.cap sInf mvSkip).tempN = 1000 ∧
      (saIter inpInfeas.N dInf inpInfeas.cap sInf mvSkip).tempD = 1) := by
  decide

/-- The claim of C9, amended to what `reconstructPath` actually does: the
function appends the reconstructed hop sequence to whatever is already
stored in `t.path`, so a second invocation on the same (start, end) pair
appends the same sequence again; it is a no-op (hence idempotent) exactly
on tasks already at their target. -/
theorem claim_C9 (nh : Mat) (fuel : Nat) (t : Task) :
    (t.start_node = t.end_node →
      reconstructPath nh fuel (reconstructPath nh fuel t) =
        reconstructPath nh fuel t) ∧
    (t.start_node ≠ t.end_node →
      (reconstructPath nh fuel (reconstructPath nh fuel t)).path =
        t.path ++ followNh nh t.end_node t.start_node fuel
               ++ followNh nh t.end_node t.start_node fuel) := by
  constructor
  · intro h
    unfold reconstructPath
    rw [if_pos h, if_pos h]
  · intro h
    unfold reconstructPath
    rw [if_neg h]
    dsimp only
    rw [if_neg h]

/-- Witness for C9: the in-place task of `inpW` is a fixed point, and the
moving task's path doubles from `[2]` to `[2, 2]`. -/
theorem claim_C9_witness :
    (reconstructPath nhW 2 (reconstructPath nhW 2 tSame) =
       reconstructPath nhW 2 tSame) ∧
    (reconstructPath nhW 2 (reconstructPath nhW 2 tMove)).path =
      tMove.path ++ followNh nhW tMove.end_node tMove.start_node 2
                 ++ followNh nhW tMove.end_node tMove.start_node 2 :=
  ⟨(claim_C9 nhW 2 tSame).1 (by decide),
   (claim_C9 nhW 2 tMove).2 (by decide)⟩

/-- Counterexample for C9 as frozen: reconstructing the 1→2 task of
`inpW` twice yields `[2, 2]`, not the single-invocation `[2]`. -/
theorem claim_C9_cx :
    (reconstructPath nhW 2 (reconstructPath nhW 2 tMove)).path ≠
      (reconstructPath nhW 2 tMove).path ∧
    (reconstructPath nhW 2 (reconstructPath nhW 2 tMove)).path = [2, 2] ∧
    (reconstructPath nhW 2 tMove).path = [2] := by
  decide

/-- Demonstration for C4: on `inpStuck` (zero-bandwidth mandatory link)
the simulation terminates after detecting the empty move set at step 1,
but its result carries no terminal status: it only reports
`total_time_steps = 1`, an empty log, and the task still unfinished. -/
theorem claim_C4_demo :
    (finalSim inpStuck [] 5).time = 1 ∧
    (finalSim inpStuck [] 5).logs = [] ∧
    anyUnfinished (finalSim inpStuck [] 5).tasks = true := by
  decide

/-- Counterexample for C1 as frozen: on `inpInfeas` the Planner leaves the
demand-5 task in place on the capacity-0 node, and the Optimizer's final
restore recomputes that node's usage as 5 > 0, violating
`current_usage ≤ capacity` at a committed state. -/
theorem claim_C1_cx :
    (finalAlloc inpInfeas []).usage 1 = 5 ∧ inpInfeas.cap 1 = 0 ∧
    ¬((finalAlloc inpInfeas []).usage 1 ≤ (inpInfeas.cap 1 : Int)) := by
  decide

/-! Bookkeeping lemmas for sums over task lists. -/

theorem sum_map_set (f : Task → Int) (ts : List Task) :
    ∀ i t2, i < ts.length →
      ((ts.set i t2).map f).sum = (ts.map f).sum - f (ts.getD i default) + f t2 := by
  induction ts with
  | nil => intro i t2 h; simp at h
  | cons t r ih =>
    intro i t2 h
    cases i with
    | zero => simp [List.sum_cons]; ring
    | succ i =>
      simp only [List.set_cons_succ, List.map_cons, List.sum_cons,
        List.getD_cons_succ]
      rw [ih i t2 (by simpa using h)]
      ring

theorem assignCost_map_end (d : Mat) (ts : List Task) :
    assignCost d ts (ts.map (fun t => t.end_node)) = totalCost d ts := by
  induction ts with
  | nil => rfl
  | cons t r ih =>
    simp only [assignCost, totalCost, List.map_cons, List.zipWith_cons_cons,
      List.sum_cons] at *
    rw [ih]

theorem assignCost_set (d : Mat) (ts : List Task) :
    ∀ (asn : List Nat) (i : Nat) (t2 : Task),
      t2.start_node = (ts.getD i default).start_node →
      t2.demand = (ts.getD i default).demand →
      assignCost d (ts.set i t2) asn = assignCost d ts asn := by
  induction ts with
  | nil => intro asn i t2 _ _; simp
  | cons t r ih =>
    intro asn i t2 hs hd
    cases i with
    | zero =>
      cases asn with
      | nil => rfl
      | cons b bs =>
        simp only [List.getD_cons_zero] at hs hd
        simp [assignCost, hs, hd]
    | succ i =>
      cases asn with
      | nil => rfl
      | cons b bs =>
        simp only [List.getD_cons_succ] at hs hd
        simp only [List.set_cons_succ, assignCost, List.zipWith_cons_cons,
          List.sum_cons]
        have := ih bs i t2 hs hd
        simp only [assignCost] at this
        rw [this]

theorem totalCost_set (d : Mat) (ts : List Task) (i : Nat) (t2 : Task)
    (h : i < ts.length) :
    totalCost d (ts.set i t2) =
      totalCost d ts -
        (d (ts.getD i default).start_node (ts.getD i default).end_node : Int) *
          ((ts.getD i default).demand : Int) +
        (d t2.start_node t2.end_node : Int) * (t2.demand : Int) := by
  exact sum_map_set (fun t => (d t.start_node t.end_node : Int) * (t.demand : Int)) ts i t2 h

/-! The optimizer's cost/snapshot invariant and its preservation. -/

theorem saInit_inv (d : Mat) (A : Alloc) : SAInv d (saInit d A) := by
  refine ⟨rfl, by simp [saInit], ?_, le_refl _⟩
  simp only [saInit]
  rw [assignCost_map_end]

theorem saCommit_inv (d : Mat) (s : SAState) (tIdx newN : Nat)
    (htIdx : tIdx < s.tasks.length)
    (hInv : SAInv d s) :
    SAInv d (saCommit d s tIdx (s.tasks.getD tIdx default) newN
      ((d (s.tasks.getD tIdx default).start_node newN : Int) *
         ((s.tasks.getD tIdx default).demand : Int) -
       (d (s.tasks.getD tIdx default).start_node
          (s.tasks.getD tIdx default).end_node : Int) *
         ((s.tasks.getD tIdx default).demand : Int))) := by
  obtain ⟨h1, h2, h3, h4⟩ := hInv
  unfold saCommit
  dsimp only
  have hcost :
      s.curCost +
        ((d (s.tasks.getD tIdx default).start_node newN : Int) *
           ((s.tasks.getD tIdx default).demand : Int) -
         (d (s.tasks.getD tIdx default).start_node
            (s.tasks.getD tIdx default).end_node : Int) *
           ((s.tasks.getD tIdx default).demand : Int)) =
      totalCost d (s.tasks.set tIdx
        { s.tasks.getD tIdx default with
          end_node := newN,
          migration_cost :=
            d (s.tasks.getD tIdx default).start_node newN *
              (s.tasks.getD tIdx default).demand }) := by
    rw [totalCost_set d s.tasks tIdx _ htIdx, h1]
    dsimp only
    ring
  split
  · refine ⟨hcost, by simp, ?_, le_refl _⟩
    rw [assignCost_map_end]
    exact hcost
  · refine ⟨hcost, by simpa using h2, ?_, ?_⟩
    · rw [assignCost_set d s.tasks s.best tIdx _ (by dsimp only) (by dsimp only)]
      exact h3
    · exact le_of_not_lt (by assumption)

theorem saTry_inv (d : Mat) (cap : Nat → Nat) (s : SAState) (tIdx newN : Nat)
    (acc : Bool) (htIdx : tIdx < s.tasks.length ∨ s.tasks = [])
    (hInv : SAInv d s) :
    SAInv d (saTry d cap s tIdx newN acc) := by
  rcases htIdx with htIdx | hnil
  · unfold saTry
    dsimp only
    split
    · split
      · exact saCommit_inv d s tIdx newN htIdx hInv
      · exact hInv
    · exact hInv
  · obtain ⟨h1, h2, h3, h4⟩ := hInv
    have hdem : ((default : Task).demand : Int) = 0 := rfl
    unfold saTry saCommit
    dsimp only
    rw [hnil] at h1 h2 h3 ⊢
    simp only [totalCost, List.map_nil, List.sum_nil] at h1
    split
    · split
      · split
        · refine ⟨?_, ?_, ?_, ?_⟩ <;>
            simp_all [totalCost, assignCost, hdem]
        · refine ⟨?_, ?_, ?_, ?_⟩ <;>
            simp_all [totalCost, assignCost, hdem]
      · exact ⟨by simp_all [totalCost], by simp_all, by simp_all, h4⟩
    · exact ⟨by simp_all [totalCost], by simp_all, by simp_all, h4⟩

theorem saIter_inv (N : Nat) (d : Mat) (cap : Nat → Nat) (s : SAState)
    (mv : SAMove) (hInv : SAInv d s) : SAInv d (saIter N d cap s mv) := by
  unfold saIter
  dsimp only
  split
  · exact hInv
  · have h2 : SAInv d (saTry d cap s (mv.tpick % s.tasks.length)
        (mv.npick % N + 1) mv.accept) := by
      apply saTry_inv
      · rcases Nat.eq_zero_or_pos s.tasks.length with h0 | h0
        · exact Or.inr (List.length_eq_zero.mp h0)
        · exact Or.inl (Nat.mod_lt _ h0)
      · exact hInv
    unfold SAInv at h2 ⊢
    rw [coolTemp_curCost, coolTemp_tasks, coolTemp_best, coolTemp_bestCost]
    exact h2

theorem saCommit_bestCost_le (d : Mat) (s : SAState) (tIdx : Nat) (t : Task)
    (newN : Nat) (diff : Int) :
    (saCommit d s tIdx t newN diff).bestCost ≤ s.bestCost := by
  unfold saCommit
  dsimp only
  split
  · exact le_of_lt (by assumption)
  · exact le_refl _

theorem saTry_bestCost_le (d : Mat) (cap : Nat → Nat) (s : SAState)
    (tIdx newN : Nat) (acc : Bool) :
    (saTry d cap s tIdx newN acc).bestCost ≤ s.bestCost := by
  unfold saTry
  dsimp only
  split
  · split
    · exact saCommit_bestCost_le ..
    · exact le_refl _
  · exact le_refl _

theorem saIter_bestCost_le (N : Nat) (d : Mat) (cap : Nat → Nat)
    (s : SAState) (mv : SAMove) :
    (saIter N d cap s mv).bestCost ≤ s.bestCost := by
  unfold saIter
  dsimp only
  split
  · exact le_refl _
  · rw [coolTemp_bestCost]
    exact saTry_bestCost_le ..

theorem saRun_bestCost_le (N : Nat) (d : Mat) (cap : Nat → Nat)
    (l : List SAMove) : ∀ s : SAState, (saRun N d cap s l).bestCost ≤ s.bestCost := by
  induction l with
  | nil => intro s; exact le_refl _
  | cons mv r ih =>
    intro s
    exact le_trans (ih (saIter N d cap s mv)) (saIter_bestCost_le ..)

theorem saRun_inv (N : Nat) (d : Mat) (cap : Nat → Nat) (l : List SAMove)
    (s : SAState) (hInv : SAInv d s) : SAInv d (saRun N d cap s l) := by
  unfold saRun
  exact foldl_inv _ (SAInv d) l s hInv (fun x mv _ hx => saIter_inv N d cap x mv hx)

/-! Restore-epilogue lemmas. -/

theorem restore_zip_end (d : Mat) :
    ∀ (ts : List Task) (bs : List Nat), bs.length = ts.length →
      (List.zipWith (fun t b =>
          { t with end_node := b,
                   migration_cost := d t.start_node b * t.demand }) ts bs).map
        (fun t => t.end_node) = bs := by
  intro ts
  induction ts with
  | nil =>
    intro bs h
    cases bs with
    | nil => rfl
    | cons b bs2 => simp at h
  | cons t r ih =>
    intro bs h
    cases bs with
    | nil => simp at h
    | cons b bs2 =>
      simp only [List.zipWith_cons_cons, List.map_cons]
      rw [ih bs2 (by simpa using h)]

theorem restore_map_end (d : Mat) (s : SAState)
    (h : s.best.length = s.tasks.length) :
    (restoreBest d s).tasks.map (fun t => t.end_node) = s.best := by
  unfold restoreBest
  dsimp only
  exact restore_zip_end d s.tasks s.best h

theorem restore_zip_cost (d : Mat) :
    ∀ (ts : List Task) (bs : List Nat),
      totalCost d (List.zipWith (fun t b =>
          { t with end_node := b,
                   migration_cost := d t.start_node b * t.demand }) ts bs) =
        assignCost d ts bs := by
  intro ts
  induction ts with
  | nil => intro bs; rfl
  | cons t r ih =>
    intro bs
    cases bs with
    | nil => rfl
    | cons b bs2 =>
      simp only [List.zipWith_cons_cons, totalCost, assignCost, List.map_cons,
        List.sum_cons] at *
      rw [ih bs2]

theorem restore_totalCost (d : Mat) (s : SAState) :
    totalCost d (restoreBest d s).tasks = assignCost d s.tasks s.best := by
  unfold restoreBest
  dsimp only
  exact restore_zip_cost d s.tasks s.best

/-- The claim of C5: along the Optimizer's run the best-ever cost is
non-increasing iteration to iteration, it never exceeds the Planner's
greedy total cost (its initial value), the final task vector written back
is exactly the best-ever snapshot, and its recomputed total cost equals
the best-ever cost. -/
theorem claim_C5 (inp : Input) (moves : List SAMove) :
    (∀ n : Nat,
      (saRun inp.N (fwResult inp).d inp.cap
          (saInit (fwResult inp).d (greedyAlloc inp)) (moves.take (n + 1))).bestCost ≤
      (saRun inp.N (fwResult inp).d inp.cap
          (saInit (fwResult inp).d (greedyAlloc inp)) (moves.take n)).bestCost) ∧
    (saRun inp.N (fwResult inp).d inp.cap
        (saInit (fwResult inp).d (greedyAlloc inp)) moves).bestCost ≤
      totalCost (fwResult inp).d (greedyAlloc inp).tasks ∧
    (finalAlloc inp moves).tasks.map (fun t => t.end_node) =
      (saRun inp.N (fwResult inp).d (inp.cap)
        (saInit (fwResult inp).d (greedyAlloc inp)) moves).best ∧
    totalCost (fwResult inp).d (finalAlloc inp moves).tasks =
      (saRun inp.N (fwResult inp).d inp.cap
        (saInit (fwResult inp).d (greedyAlloc inp)) moves).bestCost := by
  have hrun : SAInv (fwResult inp).d
      (saRun inp.N (fwResult inp).d inp.cap
        (saInit (fwResult inp).d (greedyAlloc inp)) moves) :=
    saRun_inv _ _ _ _ _ (saInit_inv _ _)
  refine ⟨?_, ?_, ?_, ?_⟩
  · intro n
    rw [List.take_succ]
    unfold saRun
    rw [List.foldl_append]
    cases h : moves[n]? with
    | none => simp
    | some mv =>
      simp only [Option.toList]
      exact saIter_bestCost_le ..
  · exact saRun_bestCost_le ..
  · exact restore_map_end _ _ hrun.2.1
  · unfold finalAlloc optimizeAllocationSA
    rw [restore_totalCost]
    exact hrun.2.2.1.symm

/-! Structural facts about the distance matrix: the diagonal is zero and
every entry stays at most `INF`, through `readInput` and `floydWarshall`. -/

theorem applyEdge_diag (S : Mat × Mat) (e : Edge) (h : DiagZero S.1) :
    DiagZero (applyEdge S e).1 := by
  intro x
  unfold applyEdge
  dsimp only
  split
  · rename_i hc
    simp only [update2]
    split
    · rename_i hx
      rw [← hx.2, ← hx.1, h x] at hc
      omega
    · split
      · rename_i hx
        rw [← hx.1, ← hx.2, h x] at hc
        omega
      · exact h x
  · exact h x

theorem applyEdge_le (S : Mat × Mat) (e : Edge) (h : LeINF S.1) :
    LeINF (applyEdge S e).1 := by
  intro x y
  unfold applyEdge
  dsimp only
  split
  · rename_i hc
    simp only [update2]
    split
    · exact le_of_lt (lt_of_lt_of_le hc (h e.u e.v))
    · split
      · exact le_of_lt (lt_of_lt_of_le hc (h e.u e.v))
      · exact h x y
  · exact h x y

theorem readEdges_diag (es : List Edge) : DiagZero (readEdges es).1 := by
  unfold readEdges
  apply foldl_inv _ (fun S => DiagZero S.1) es (dist0, adj0)
  · intro x; simp [dist0]
  · intro S e _ hS; exact applyEdge_diag S e hS

theorem readEdges_le (es : List Edge) : LeINF (readEdges es).1 := by
  unfold readEdges
  apply foldl_inv _ (fun S => LeINF S.1) es (dist0, adj0)
  · intro x y
    show (if x = y then 0 else INF) ≤ INF
    split
    · exact Nat.zero_le _
    · exact le_refl _
  · intro S e _ hS; exact applyEdge_le S e hS

theorem relax_diag (k : Nat) (S : FWState) (i j : Nat) (h : DiagZero S.d) :
    DiagZero (relax k S i j).d := by
  unfold relax
  split
  · rename_i hg
    intro x
    simp only [update2]
    split
    · rename_i hx
      obtain ⟨h1, h2, h3⟩ := hg
      rw [← hx.1, ← hx.2, h x] at h3
      omega
    · exact h x
  · exact h

theorem relax_le (k : Nat) (S : FWState) (i j : Nat) (h : LeINF S.d) :
    LeINF (relax k S i j).d := by
  unfold relax
  split
  · rename_i hg
    intro x y
    simp only [update2]
    split
    · exact le_of_lt (lt_of_lt_of_le hg.2.2 (h i j))
    · exact h x y
  · exact h

/-- Any property preserved by a single relaxation is preserved by the
whole Floyd–Warshall triple loop. -/
theorem fw_pres (P : FWState → Prop)
    (hrelax : ∀ k S i j, P S → P (relax k S i j)) :
    ∀ (N : Nat) (S : FWState), P S → P (floydWarshall N S) := by
  intro N S hS
  unfold floydWarshall
  apply foldl_inv _ P _ _ hS
  intro x k _ hx
  unfold pivot
  apply foldl_inv _ P _ _ hx
  intro y i _ hy
  unfold relaxRow
  apply foldl_inv _ P _ _ hy
  intro z j _ hz
  exact hrelax k z i j hz

theorem fw_diag (inp : Input) : DiagZero (fwResult inp).d := by
  unfold fwResult
  exact fw_pres (fun S => DiagZero S.d)
    (fun k S i j hS => relax_diag k S i j hS) inp.N _ (readEdges_diag inp.edges)

theorem fw_le (inp : Input) : LeINF (fwResult inp).d := by
  unfold fwResult
  exact fw_pres (fun S => LeINF S.d)
    (fun k S i j hS => relax_le k S i j hS) inp.N _ (readEdges_le inp.edges)

/-! Characterisation of the Planner's target scan and the reachability
invariant through the pipeline. -/

theorem pickBest_some (N : Nat) (d : Mat) (cap : Nat → Nat)
    (usage : Nat → Int) (t : Task) (b c : Nat)
    (h : pickBest N d cap usage t = some (b, c)) :
    b ∈ rng N ∧ d t.start_node b ≠ INF ∧
    usage b + (t.demand : Int) ≤ (cap b : Int) ∧
    c = d t.start_node b * t.demand := by
  have key : ∀ p : Nat × Nat, pickBest N d cap usage t = some p →
      p.1 ∈ rng N ∧ d t.start_node p.1 ≠ INF ∧
      usage p.1 + (t.demand : Int) ≤ (cap p.1 : Int) ∧
      p.2 = d t.start_node p.1 * t.demand := by
    unfold pickBest
    apply foldl_inv _ (fun acc => ∀ p : Nat × Nat, acc = some p →
      p.1 ∈ rng N ∧ d t.start_node p.1 ≠ INF ∧
      usage p.1 + (t.demand : Int) ≤ (cap p.1 : Int) ∧
      p.2 = d t.start_node p.1 * t.demand)
    · intro p hp; cases hp
    · intro acc target htarget hacc
      unfold pickStep
      dsimp only
      split
      · exact hacc
      · rename_i hreach
        split
        · rename_i hcap
          cases acc with
          | none =>
            intro p hp
            cases hp
            exact ⟨htarget, hreach, hcap, rfl⟩
          | some q =>
            dsimp only
            split
            · intro p hp
              cases hp
              exact ⟨htarget, hreach, hcap, rfl⟩
            · exact fun p hp => hacc p (by rw [hp])
        · exact hacc
  exact key (b, c) h

theorem greedyStep_reach (N : Nat) (d : Mat) (cap : Nat → Nat) (A : Alloc)
    (idx : Nat) (h : ReachTasks d A.tasks) :
    ReachTasks d (greedyStep N d cap A idx).tasks := by
  unfold greedyStep
  dsimp only
  cases hp : pickBest N d cap A.usage (A.tasks.getD idx default) with
  | none => exact h
  | some bc =>
    obtain ⟨b, c⟩ := bc
    intro t2 ht2
    rcases List.mem_or_eq_of_mem_set ht2 with hmem | heq
    · exact h t2 hmem
    · rw [heq]
      exact (pickBest_some N d cap A.usage _ b c hp).2.1

theorem greedy_reach (N : Nat) (d : Mat) (cap : Nat → Nat) (ts : List Task)
    (hts : ReachTasks d ts) :
    ReachTasks d (solveAllocationGreedy N d cap ts).tasks := by
  unfold solveAllocationGreedy
  exact foldl_inv (greedyStep N d cap) (fun A => ReachTasks d A.tasks)
    (greedyOrder ts) { tasks := ts, usage := fun _ => 0 } hts
    (fun A idx _ hA => greedyStep_reach N d cap A idx hA)

theorem forall2_map_end {R : Task → Nat → Prop} :
    ∀ ts : List Task, (∀ t ∈ ts, R t t.end_node) →
      List.Forall₂ R ts (ts.map fun t => t.end_node) := by
  intro ts
  induction ts with
  | nil => intro _; exact List.Forall₂.nil
  | cons t r ih =>
    intro h
    exact List.Forall₂.cons (h t (by simp))
      (ih (fun x hx => h x (by simp [hx])))

theorem forall2_set_start (d : Mat) :
    ∀ (ts : List Task) (bs : List Nat) (i : Nat) (t2 : Task),
      t2.start_node = (ts.getD i default).start_node →
      List.Forall₂ (fun t b => d t.start_node b ≠ INF) ts bs →
      List.Forall₂ (fun t b => d t.start_node b ≠ INF) (ts.set i t2) bs := by
  intro ts
  induction ts with
  | nil => intro bs i t2 _ h; simpa using h
  | cons t r ih =>
    intro bs i t2 hs h
    cases h with
    | cons hR hrest =>
      cases i with
      | zero =>
        simp only [List.getD_cons_zero] at hs
        exact List.Forall₂.cons (by rw [hs]; exact hR) hrest
      | succ i =>
        simp only [List.getD_cons_succ] at hs
        exact List.Forall₂.cons hR (ih _ i t2 hs hrest)

theorem saInit_reach (d : Mat) (A : Alloc) (h : ReachTasks d A.tasks) :
    SAReach d (saInit d A) := by
  exact ⟨h, forall2_map_end A.tasks (fun t ht => h t ht)⟩

theorem saCommit_reach (d : Mat) (s : SAState) (tIdx newN : Nat) (diff : Int)
    (hreach : d (s.tasks.getD tIdx default).start_node newN ≠ INF)
    (h : SAReach d s) :
    SAReach d (saCommit d s tIdx (s.tasks.getD tIdx default) newN diff) := by
  obtain ⟨h1, h2⟩ := h
  have htasks2 : ReachTasks d (s.tasks.set tIdx
      { s.tasks.getD tIdx default with
        end_node := newN,
        migration_cost := d (s.tasks.getD tIdx default).start_node newN *
          (s.tasks.getD tIdx default).demand }) := by
    intro t2 ht2
    rcases List.mem_or_eq_of_mem_set ht2 with hmem | heq
    · exact h1 t2 hmem
    · rw [heq]; exact hreach
  unfold saCommit
  dsimp only
  split
  · exact ⟨htasks2, forall2_map_end _ (fun t ht => htasks2 t ht)⟩
  · exact ⟨htasks2, forall2_set_start d s.tasks s.best tIdx _ (by dsimp only) h2⟩

theorem saIter_reach (N : Nat) (d : Mat) (cap : Nat → Nat) (s : SAState)
    (mv : SAMove) (h : SAReach d s) : SAReach d (saIter N d cap s mv) := by
  unfold saIter
  dsimp only
  split
  · exact h
  · rename_i hguard
    have hreach : d (s.tasks.getD (mv.tpick % s.tasks.length) default).start_node
        (mv.npick % N + 1) ≠ INF := fun hc => hguard (Or.inr hc)
    have h2 : SAReach d (saTry d cap s (mv.tpick % s.tasks.length)
        (mv.npick % N + 1) mv.accept) := by
      unfold saTry
      dsimp only
      split
      · split
        · exact saCommit_reach d s _ _ _ hreach h
        · exact h
      · exact h
    unfold SAReach at h2 ⊢
    rw [coolTemp_tasks, coolTemp_best]
    exact h2

theorem restore_reach (d : Mat) (s : SAState)
    (h : List.Forall₂ (fun t b => d t.start_node b ≠ INF) s.tasks s.best) :
    ReachTasks d (restoreBest d s).tasks := by
  unfold restoreBest
  dsimp only
  have aux : ∀ (ts : List Task) (bs : List Nat),
      List.Forall₂ (fun t b => d t.start_node b ≠ INF) ts bs →
      ReachTasks d (List.zipWith (fun t b =>
        { t with end_node := b,
                 migration_cost := d t.start_node b * t.demand }) ts bs) := by
    intro ts
    induction ts with
    | nil => intro bs _ t2 ht2; simp at ht2
    | cons t r ih =>
      intro bs hf t2 ht2
      cases hf with
      | cons hR hrest =>
        simp only [List.zipWith_cons_cons, List.mem_cons] at ht2
        rcases ht2 with heq | hmem
        · rw [heq]; exact hR
        · exact ih _ hrest t2 hmem
  exact aux s.tasks s.best h

/-- The claim of C10: after Planner and Optimizer, every task's end node
is reachable from its start node (`dist[start][end] < INF`): tasks start
with `end = start` at distance 0, the Planner only assigns
finite-distance targets, the Optimizer rejects infinite-distance
candidates, and the restored snapshot only ever held committed (hence
reachable) assignments. -/
theorem claim_C10 (inp : Input) (moves : List SAMove) :
    ∀ t ∈ (finalAlloc inp moves).tasks,
      (fwResult inp).d t.start_node t.end_node < INF := by
  have hinit : ReachTasks (fwResult inp).d (initialTasks inp) := by
    intro t ht
    unfold initialTasks at ht
    obtain ⟨spec, _, hspec⟩ := List.mem_map.mp ht
    rw [← hspec]
    unfold mkTask
    dsimp only
    rw [fw_diag inp spec.start_node]
    decide
  have hgreedy : ReachTasks (fwResult inp).d (greedyAlloc inp).tasks :=
    greedy_reach _ _ _ _ hinit
  have hrun : SAReach (fwResult inp).d
      (saRun inp.N (fwResult inp).d inp.cap
        (saInit (fwResult inp).d (greedyAlloc inp)) moves) := by
    unfold saRun
    apply foldl_inv _ (SAReach (fwResult inp).d) _ _
      (saInit_reach _ _ hgreedy)
    intro s mv _ hs
    exact saIter_reach inp.N (fwResult inp).d inp.cap s mv hs
  intro t ht
  have hne : (fwResult inp).d t.start_node t.end_node ≠ INF := by
    revert ht
    exact fun ht => restore_reach _ _ hrun.2 t ht
  exact lt_of_le_of_ne (fw_le inp t.start_node t.end_node) hne

/-! Usage-counter bookkeeping for the capacity invariant (claim C1). -/

theorem recomputeUsage_set (ts : List Task) (i : Nat) (t2 : Task) (n : Nat)
    (h : i < ts.length) :
    recomputeUsage (ts.set i t2) n =
      recomputeUsage ts n -
        (if (ts.getD i default).end_node = n
         then ((ts.getD i default).demand : Int) else 0) +
        (if t2.end_node = n then (t2.demand : Int) else 0) :=
  sum_map_set (fun t => if t.end_node = n then (t.demand : Int) else 0) ts i t2 h

theorem assignUsage_map_end :
    ∀ (ts : List Task) (n : Nat),
      assignUsage ts (ts.map fun t => t.end_node) n = recomputeUsage ts n := by
  intro ts
  induction ts with
  | nil => intro n; rfl
  | cons t r ih =>
    intro n
    simp only [assignUsage, recomputeUsage, List.map_cons,
      List.zipWith_cons_cons, List.sum_cons] at *
    rw [ih n]

theorem assignUsage_set :
    ∀ (ts : List Task) (bs : List Nat) (i : Nat) (t2 : Task) (n : Nat),
      t2.demand = (ts.getD i default).demand →
      assignUsage (ts.set i t2) bs n = assignUsage ts bs n := by
  intro ts
  induction ts with
  | nil => intro bs i t2 n _; simp
  | cons t r ih =>
    intro bs i t2 n hd
    cases i with
    | zero =>
      cases bs with
      | nil => rfl
      | cons b bs2 =>
        simp only [List.getD_cons_zero] at hd
        simp [assignUsage, hd]
    | succ i =>
      cases bs with
      | nil => rfl
      | cons b bs2 =>
        simp only [List.getD_cons_succ] at hd
        simp only [List.set_cons_succ, assignUsage, List.zipWith_cons_cons,
          List.sum_cons]
        have := ih bs2 i t2 n hd
        simp only [assignUsage] at this
        rw [this]

theorem restore_zip_usage (d : Mat) :
    ∀ (ts : List Task) (bs : List Nat) (n : Nat),
      recomputeUsage (List.zipWith (fun t b =>
        { t with end_node := b,
                 migration_cost := d t.start_node b * t.demand }) ts bs) n =
      assignUsage ts bs n := by
  intro ts
  induction ts with
  | nil => intro bs n; cases bs <;> rfl
  | cons t r ih =>
    intro bs n
    cases bs with
    | nil => rfl
    | cons b bs2 =>
      simp only [List.zipWith_cons_cons, recomputeUsage, assignUsage,
        List.map_cons, List.sum_cons] at *
      rw [ih bs2 n]

theorem saInit_cap (d : Mat) (cap : Nat → Nat) (A : Alloc)
    (hu : ∀ n, A.usage n = recomputeUsage A.tasks n)
    (hle : ∀ n, A.usage n ≤ (cap n : Int)) :
    SACap cap (saInit d A) := by
  refine ⟨hu, hle, by simp [saInit], ?_⟩
  intro n
  show assignUsage A.tasks (A.tasks.map fun t => t.end_node) n ≤ (cap n : Int)
  rw [assignUsage_map_end, ← hu n]
  exact hle n

theorem saCommit_cap (d : Mat) (cap : Nat → Nat) (s : SAState)
    (tIdx newN : Nat) (diff : Int)
    (htIdx : tIdx < s.tasks.length)
    (hne : newN ≠ (s.tasks.getD tIdx default).end_node)
    (hcap : s.usage newN + ((s.tasks.getD tIdx default).demand : Int) ≤
      (cap newN : Int))
    (h : SACap cap s) :
    SACap cap (saCommit d s tIdx (s.tasks.getD tIdx default) newN diff) := by
  obtain ⟨hu, hle, hlen, hsnap⟩ := h
  have husage2 : ∀ n,
      (if n = (s.tasks.getD tIdx default).end_node
       then s.usage n - ((s.tasks.getD tIdx default).demand : Int)
       else if n = newN
       then s.usage n + ((s.tasks.getD tIdx default).demand : Int)
       else s.usage n) =
      recomputeUsage (s.tasks.set tIdx
        { s.tasks.getD tIdx default with
          end_node := newN,
          migration_cost := d (s.tasks.getD tIdx default).start_node newN *
            (s.tasks.getD tIdx default).demand }) n := by
    intro n
    rw [recomputeUsage_set s.tasks tIdx _ n htIdx]
    dsimp only
    have hun := hu n
    split_ifs <;> omega
  have hle2 : ∀ n,
      (if n = (s.tasks.getD tIdx default).end_node
       then s.usage n - ((s.tasks.getD tIdx default).demand : Int)
       else if n = newN
       then s.usage n + ((s.tasks.getD tIdx default).demand : Int)
       else s.usage n) ≤ (cap n : Int) := by
    intro n
    by_cases h1 : n = (s.tasks.getD tIdx default).end_node
    · rw [if_pos h1]
      exact le_trans (sub_le_self _ (Int.natCast_nonneg _)) (hle n)
    · rw [if_neg h1]
      by_cases h2 : n = newN
      · subst h2
        rw [if_pos rfl]
        exact hcap
      · rw [if_neg h2]
        exact hle n
  unfold saCommit
  dsimp only
  split
  · refine ⟨husage2, hle2, by simp, ?_⟩
    intro n
    rw [assignUsage_map_end, ← husage2 n]
    exact hle2 n
  · refine ⟨husage2, hle2, by simpa using hlen, ?_⟩
    intro n
    rw [assignUsage_set s.tasks s.best tIdx _ n (by dsimp only)]
    exact hsnap n

theorem saTry_cap (d : Mat) (cap : Nat → Nat) (s : SAState)
    (tIdx newN : Nat) (acc : Bool)
    (htIdx : tIdx < s.tasks.length ∨ s.tasks = [])
    (hne : newN ≠ (s.tasks.getD tIdx default).end_node)
    (h : SACap cap s) :
    SACap cap (saTry d cap s tIdx newN acc) := by
  rcases htIdx with htIdx | hnil
  · unfold saTry
    dsimp only
    split
    · rename_i hcap
      split
      · exact saCommit_cap d cap s tIdx newN _ htIdx hne hcap h
      · exact h
    · exact h
  · obtain ⟨hu, hle, hlen, hsnap⟩ := h
    have hu0 : ∀ n, s.usage n = 0 := by
      intro n
      have h2 := hu n
      rw [hnil] at h2
      simpa [recomputeUsage] using h2
    have hd0 : ((default : Task).demand : Int) = 0 := rfl
    have hgetD : s.tasks.getD tIdx default = default := by rw [hnil]; rfl
    have hlen0 : s.best.length = 0 := by rw [hlen, hnil]; rfl
    unfold saTry saCommit
    dsimp only
    rw [hgetD, hd0, hnil]
    have hsetnil : ∀ x : Task, ([] : List Task).set tIdx x = [] := fun x => rfl
    rw [hsetnil]
    split
    · split
      · split
        · refine ⟨?_, ?_, ?_, ?_⟩
          · intro n
            dsimp only
            show _ = recomputeUsage ([] : List Task) n
            have h3 := hu0 n
            split_ifs <;> simp [recomputeUsage, h3]
          · intro n
            dsimp only
            have h3 := hu0 n
            split_ifs <;> omega
          · rfl
          · intro n
            dsimp only
            show (0 : Int) ≤ (cap n : Int)
            exact Int.natCast_nonneg _
        · refine ⟨?_, ?_, ?_, ?_⟩
          · intro n
            dsimp only
            show _ = recomputeUsage ([] : List Task) n
            have h3 := hu0 n
            split_ifs <;> simp [recomputeUsage, h3]
          · intro n
            dsimp only
            have h3 := hu0 n
            split_ifs <;> omega
          · simpa using hlen0
          · intro n
            dsimp only
            show (0 : Int) ≤ (cap n : Int)
            exact Int.natCast_nonneg _
      · exact ⟨hu, hle, hlen, hsnap⟩
    · exact ⟨hu, hle, hlen, hsnap⟩

theorem saIter_cap (N : Nat) (d : Mat) (cap : Nat → Nat) (s : SAState)
    (mv : SAMove) (h : SACap cap s) : SACap cap (saIter N d cap s mv) := by
  unfold saIter
  dsimp only
  split
  · exact h
  · rename_i hguard
    have h2 : SACap cap (saTry d cap s (mv.tpick % s.tasks.length)
        (mv.npick % N + 1) mv.accept) := by
      apply saTry_cap
      · rcases Nat.eq_zero_or_pos s.tasks.length with h0 | h0
        · exact Or.inr (List.length_eq_zero.mp h0)
        · exact Or.inl (Nat.mod_lt _ h0)
      · exact fun hc => hguard (Or.inl hc)
      · exact h
    unfold SACap at h2 ⊢
    rw [coolTemp_usage, coolTemp_tasks, coolTemp_best]
    exact h2

theorem saIter_usage_le (N : Nat) (d : Mat) (cap : Nat → Nat) (s : SAState)
    (mv : SAMove) (hle : ∀ n, s.usage n ≤ (cap n : Int)) :
    ∀ n, (saIter N d cap s mv).usage n ≤ (cap n : Int) := by
  unfold saIter
  dsimp only
  split
  · exact hle
  · rename_i hguard
    intro n
    rw [coolTemp_usage]
    unfold saTry
    dsimp only
    split
    · rename_i hcap
      split
      · unfold saCommit
        dsimp only
        have key :
            (if n = (s.tasks.getD (mv.tpick % s.tasks.length) default).end_node
             then s.usage n -
               ((s.tasks.getD (mv.tpick % s.tasks.length) default).demand : Int)
             else if n = mv.npick % N + 1
             then s.usage n +
               ((s.tasks.getD (mv.tpick % s.tasks.length) default).demand : Int)
             else s.usage n) ≤ (cap n : Int) := by
          by_cases h1 : n = (s.tasks.getD (mv.tpick % s.tasks.length) default).end_node
          · rw [if_pos h1]
            exact le_trans (sub_le_self _ (Int.natCast_nonneg _)) (hle n)
          · rw [if_neg h1]
            by_cases h2 : n = mv.npick % N + 1
            · rw [if_pos h2, h2]
              exact hcap
            · rw [if_neg h2]
              exact hle n
        split
        · exact key
        · exact key
      · exact hle n
    · exact hle n

theorem greedy_usage_le (N : Nat) (d : Mat) (cap : Nat → Nat)
    (ts : List Task) :
    ∀ n, (solveAllocationGreedy N d cap ts).usage n ≤ (cap n : Int) := by
  unfold solveAllocationGreedy
  apply foldl_inv (greedyStep N d cap) (fun A => ∀ n, A.usage n ≤ (cap n : Int))
  · intro n
    exact Int.natCast_nonneg _
  · intro A idx _ hA
    unfold greedyStep
    dsimp only
    cases hp : pickBest N d cap A.usage (A.tasks.getD idx default) with
    | none => exact hA
    | some bc =>
      obtain ⟨b, c⟩ := bc
      intro n
      dsimp only
      by_cases hn : n = b
      · rw [if_pos hn, hn]
        exact (pickBest_some N d cap A.usage _ b c hp).2.2.1
      · rw [if_neg hn]
        exact hA n

/-- The claim of C1, amended for the interaction between the Planner's
infeasible-left-in-place policy and the Optimizer's final restore: the
Planner's committed counters always respect every capacity, and so does
every accepted Optimizer move on the tracked counters — both
unconditionally, on every input; the state after the final best-snapshot
restore (which recomputes usage from all tasks, including any task left
in place infeasibly) respects every capacity provided the Planner placed
every task, i.e. its counters account for every task's demand. -/
theorem claim_C1 (inp : Input) (moves : List SAMove) :
    (∀ n, (greedyAlloc inp).usage n ≤ (inp.cap n : Int)) ∧
    (∀ (s : SAState) (mv : SAMove), (∀ n, s.usage n ≤ (inp.cap n : Int)) →
      ∀ n, (saIter inp.N (fwResult inp).d inp.cap s mv).usage n ≤ (inp.cap n : Int)) ∧
    ((∀ n, (greedyAlloc inp).usage n =
        recomputeUsage (greedyAlloc inp).tasks n) →
      ∀ n, (finalAlloc inp moves).usage n ≤ (inp.cap n : Int)) := by
  have hgle : ∀ n, (greedyAlloc inp).usage n ≤ (inp.cap n : Int) :=
    greedy_usage_le inp.N (fwResult inp).d inp.cap (initialTasks inp)
  refine ⟨hgle, ?_, ?_⟩
  · intro s mv hle
    exact saIter_usage_le inp.N (fwResult inp).d inp.cap s mv hle
  · intro hplaced
    have hrun : SACap inp.cap
        (saRun inp.N (fwResult inp).d inp.cap
          (saInit (fwResult inp).d (greedyAlloc inp)) moves) := by
      unfold saRun
      apply foldl_inv _ (SACap inp.cap) _ _
        (saInit_cap (fwResult inp).d inp.cap (greedyAlloc inp) hplaced hgle)
      intro s mv _ hs
      exact saIter_cap inp.N (fwResult inp).d inp.cap s mv hs
    intro n
    unfold finalAlloc optimizeAllocationSA restoreBest
    dsimp only
    rw [restore_zip_usage]
    exact hrun.2.2.2 n

/-! Characterisation of the greedy target scan (claim C7). -/

theorem pickStep_not_feasible (d : Mat) (cap : Nat → Nat) (usage : Nat → Int)
    (t : Task) (acc : Option (Nat × Nat)) (a : Nat)
    (h : ¬ Feasible d cap usage t a) :
    pickStep d cap usage t acc a = acc := by
  unfold pickStep
  split
  · rfl
  · rename_i h1
    split
    · rename_i h2
      exact absurd ⟨h1, h2⟩ h
    · rfl

theorem pickStep_none_feasible (d : Mat) (cap : Nat → Nat) (usage : Nat → Int)
    (t : Task) (a : Nat) (h : Feasible d cap usage t a) :
    pickStep d cap usage t none a = some (a, d t.start_node a * t.demand) := by
  unfold pickStep
  rw [if_neg h.1, if_pos h.2]

theorem pickStep_some_feasible (d : Mat) (cap : Nat → Nat) (usage : Nat → Int)
    (t : Task) (b0 m0 a : Nat) (h : Feasible d cap usage t a) :
    pickStep d cap usage t (some (b0, m0)) a =
      if d t.start_node a * t.demand < m0
      then some (a, d t.start_node a * t.demand)
      else some (b0, m0) := by
  unfold pickStep
  rw [if_neg h.1, if_pos h.2]

theorem pick_go_mono (d : Mat) (cap : Nat → Nat) (usage : Nat → Int)
    (t : Task) :
    ∀ (L : List Nat) (acc : Option (Nat × Nat)) (b c b0 m0 : Nat),
      L.foldl (pickStep d cap usage t) acc = some (b, c) →
      acc = some (b0, m0) →
      c < m0 ∨ (c = m0 ∧ b = b0) := by
  intro L
  induction L with
  | nil =>
    intro acc b c b0 m0 hres hacc
    rw [List.foldl_nil, hacc] at hres
    injection hres with h
    injection h with h1 h2
    exact Or.inr ⟨h2.symm, h1.symm⟩
  | cons a L ih =>
    intro acc b c b0 m0 hres hacc
    subst hacc
    rw [List.foldl_cons] at hres
    by_cases hf : Feasible d cap usage t a
    · rw [pickStep_some_feasible d cap usage t b0 m0 a hf] at hres
      by_cases hlt : d t.start_node a * t.demand < m0
      · rw [if_pos hlt] at hres
        rcases ih _ b c a _ hres rfl with h | h
        · exact Or.inl (by omega)
        · exact Or.inl (by omega)
      · rw [if_neg hlt] at hres
        exact ih _ b c b0 m0 hres rfl
    · rw [pickStep_not_feasible d cap usage t _ a hf] at hres
      exact ih _ b c b0 m0 hres rfl

theorem pick_go_min (d : Mat) (cap : Nat → Nat) (usage : Nat → Int)
    (t : Task) :
    ∀ (L : List Nat) (acc : Option (Nat × Nat)) (b c : Nat),
      L.foldl (pickStep d cap usage t) acc = some (b, c) →
      (∀ n ∈ L, Feasible d cap usage t n → c ≤ d t.start_node n * t.demand) ∧
      (∀ b0 m0, acc = some (b0, m0) → c ≤ m0) := by
  intro L
  induction L with
  | nil =>
    intro acc b c hres
    refine ⟨fun n hn => absurd hn (List.not_mem_nil n), ?_⟩
    intro b0 m0 hacc
    rw [List.foldl_nil, hacc] at hres
    injection hres with h
    injection h with h1 h2
    omega
  | cons a L ih =>
    intro acc b c hres
    rw [List.foldl_cons] at hres
    obtain ⟨ih1, ih2⟩ := ih (pickStep d cap usage t acc a) b c hres
    constructor
    · intro n hn hfn
      rcases List.mem_cons.mp hn with heq | hn2
      · rw [heq] at hfn ⊢
        cases acc with
        | none =>
          exact ih2 a _ (pickStep_none_feasible d cap usage t a hfn)
        | some p =>
          obtain ⟨b0, m0⟩ := p
          by_cases hlt : d t.start_node a * t.demand < m0
          · exact ih2 a _ (by
              rw [pickStep_some_feasible d cap usage t b0 m0 a hfn, if_pos hlt])
          · have h2 := ih2 b0 m0 (by
              rw [pickStep_some_feasible d cap usage t b0 m0 a hfn, if_neg hlt])
            omega
      · exact ih1 n hn2 hfn
    · intro b0 m0 hacc
      subst hacc
      by_cases hf : Feasible d cap usage t a
      · by_cases hlt : d t.start_node a * t.demand < m0
        · have h2 := ih2 a _ (by
            rw [pickStep_some_feasible d cap usage t b0 m0 a hf, if_pos hlt])
          omega
        · exact ih2 b0 m0 (by
            rw [pickStep_some_feasible d cap usage t b0 m0 a hf, if_neg hlt])
      · exact ih2 b0 m0 (pickStep_not_feasible d cap usage t _ a hf)

theorem pick_go_tie (d : Mat) (cap : Nat → Nat) (usage : Nat → Int)
    (t : Task) :
    ∀ (L : List Nat) (acc : Option (Nat × Nat)) (b c : Nat),
      List.Pairwise (fun x y => x < y) L →
      (∀ b0 m0, acc = some (b0, m0) → ∀ n ∈ L, b0 < n) →
      L.foldl (pickStep d cap usage t) acc = some (b, c) →
      ∀ n ∈ L, Feasible d cap usage t n →
        d t.start_node n * t.demand = c → b ≤ n := by
  intro L
  induction L with
  | nil => intro acc b c _ _ _ n hn; exact absurd hn (List.not_mem_nil n)
  | cons a L ih =>
    intro acc b c hpair hacc hres
    obtain ⟨ha, hpair2⟩ := List.pairwise_cons.mp hpair
    rw [List.foldl_cons] at hres
    have hacc2 : ∀ b0 m0, pickStep d cap usage t acc a = some (b0, m0) →
        ∀ n ∈ L, b0 < n := by
      intro b0 m0 hstep n hn
      by_cases hf : Feasible d cap usage t a
      · cases acc with
        | none =>
          rw [pickStep_none_feasible d cap usage t a hf] at hstep
          injection hstep with h
          injection h with h1 h2
          rw [← h1]
          exact ha n hn
        | some p =>
          obtain ⟨b1, m1⟩ := p
          rw [pickStep_some_feasible d cap usage t b1 m1 a hf] at hstep
          by_cases hlt : d t.start_node a * t.demand < m1
          · rw [if_pos hlt] at hstep
            injection hstep with h
            injection h with h1 h2
            rw [← h1]
            exact ha n hn
          · rw [if_neg hlt] at hstep
            injection hstep with h
            injection h with h1 h2
            rw [← h1]
            exact hacc b1 m1 rfl n (List.mem_cons_of_mem a hn)
      · rw [pickStep_not_feasible d cap usage t acc a hf] at hstep
        exact hacc b0 m0 hstep n (List.mem_cons_of_mem a hn)
    intro n hn hfn hcost
    rcases List.mem_cons.mp hn with heq | hn2
    · rw [heq] at hfn hcost ⊢
      cases acc with
      | none =>
        have hstep := pickStep_none_feasible d cap usage t a hfn
        rcases pick_go_mono d cap usage t L _ b c a _ hres hstep with h | h
        · omega
        · omega
      | some p =>
        obtain ⟨b1, m1⟩ := p
        have hstep := pickStep_some_feasible d cap usage t b1 m1 a hfn
        by_cases hlt : d t.start_node a * t.demand < m1
        · rw [if_pos hlt] at hstep
          rcases pick_go_mono d cap usage t L _ b c a _ hres hstep with h | h
          · omega
          · omega
        · rw [if_neg hlt] at hstep
          rcases pick_go_mono d cap usage t L _ b c b1 m1 hres hstep with h | h
          · omega
          · have hb1 : b1 < a := hacc b1 m1 rfl a (List.mem_cons_self a L)
            omega
    · exact ih _ b c hpair2 hacc2 hres n hn2 hfn hcost

theorem pick_go_none (d : Mat) (cap : Nat → Nat) (usage : Nat → Int)
    (t : Task) :
    ∀ (L : List Nat) (acc : Option (Nat × Nat)),
      L.foldl (pickStep d cap usage t) acc = none ↔
      (acc = none ∧ ∀ n ∈ L, ¬ Feasible d cap usage t n) := by
  intro L
  induction L with
  | nil =>
    intro acc
    simp only [List.foldl_nil, List.not_mem_nil, false_implies, implies_true,
      and_true]
  | cons a L ih =>
    intro acc
    rw [List.foldl_cons, ih]
    constructor
    · rintro ⟨hstep, hall⟩
      have hkey : acc = none ∧ ¬ Feasible d cap usage t a := by
        by_cases hf : Feasible d cap usage t a
        · cases acc with
          | none =>
            rw [pickStep_none_feasible d cap usage t a hf] at hstep
            cases hstep
          | some p =>
            obtain ⟨b1, m1⟩ := p
            rw [pickStep_some_feasible d cap usage t b1 m1 a hf] at hstep
            by_cases hlt : d t.start_node a * t.demand < m1
            · rw [if_pos hlt] at hstep; cases hstep
            · rw [if_neg hlt] at hstep; cases hstep
        · rw [pickStep_not_feasible d cap usage t acc a hf] at hstep
          exact ⟨hstep, hf⟩
      refine ⟨hkey.1, ?_⟩
      intro n hn
      rcases List.mem_cons.mp hn with heq | hn2
      · rw [heq]; exact hkey.2
      · exact hall n hn2
    · rintro ⟨hacc, hall⟩
      subst hacc
      rw [pickStep_not_feasible d cap usage t none a
        (hall a (List.mem_cons_self a L))]
      exact ⟨rfl, fun n hn => hall n (List.mem_cons_of_mem a hn)⟩

/-- The run-level shape invariant of the Planner: every task either keeps
its initial in-place assignment (end = start, cost 0) or was committed to
a reachable in-range target with the committed cost formula. -/
theorem greedy_shape (N : Nat) (d : Mat) (cap : Nat → Nat) (ts0 : List Task)
    (h0 : ∀ t ∈ ts0, t.end_node = t.start_node ∧ t.migration_cost = 0) :
    ∀ t ∈ (solveAllocationGreedy N d cap ts0).tasks,
      (t.end_node = t.start_node ∧ t.migration_cost = 0) ∨
      (t.end_node ∈ rng N ∧ d t.start_node t.end_node ≠ INF ∧
       t.migration_cost = d t.start_node t.end_node * t.demand) := by
  unfold solveAllocationGreedy
  apply foldl_inv (greedyStep N d cap) (fun A => ∀ t ∈ A.tasks,
    (t.end_node = t.start_node ∧ t.migration_cost = 0) ∨
    (t.end_node ∈ rng N ∧ d t.start_node t.end_node ≠ INF ∧
     t.migration_cost = d t.start_node t.end_node * t.demand))
  · exact fun t ht => Or.inl (h0 t ht)
  · intro A idx _ hA
    unfold greedyStep
    dsimp only
    cases hp : pickBest N d cap A.usage (A.tasks.getD idx default) with
    | none => exact hA
    | some bc =>
      obtain ⟨b, c⟩ := bc
      intro t2 ht2
      rcases List.mem_or_eq_of_mem_set ht2 with hmem | heq
      · exact hA t2 hmem
      · obtain ⟨hb1, hb2, _, hb4⟩ := pickBest_some N d cap A.usage _ b c hp
        rw [heq]
        exact Or.inr ⟨hb1, hb2, hb4⟩

/-- The claim of C7: the Planner's processing order is a descending-demand
permutation of all task indices; for each task the scan returns exactly
the lowest-id feasible target of minimum `dist * demand` (or nothing when
no feasible target exists); the chosen node's usage is committed
immediately; and every task the whole run leaves unplaced keeps its start
node with migration cost zero. -/
theorem claim_C7 (N : Nat) (d : Mat) (cap : Nat → Nat) (ts : List Task) :
    List.Sorted (fun a b =>
      (ts.getD b default).demand ≤ (ts.getD a default).demand)
      (greedyOrder ts) ∧
    (greedyOrder ts).Perm (List.range ts.length) ∧
    (∀ (usage : Nat → Int) (t : Task) (b c : Nat),
      pickBest N d cap usage t = some (b, c) →
        b ∈ rng N ∧ Feasible d cap usage t b ∧
        c = d t.start_node b * t.demand ∧
        (∀ n ∈ rng N, Feasible d cap usage t n →
          c ≤ d t.start_node n * t.demand) ∧
        (∀ n ∈ rng N, Feasible d cap usage t n →
          d t.start_node n * t.demand = c → b ≤ n)) ∧
    (∀ (usage : Nat → Int) (t : Task),
      pickBest N d cap usage t = none ↔
        ∀ n ∈ rng N, ¬ Feasible d cap usage t n) ∧
    (∀ (A : Alloc) (idx b c : Nat),
      pickBest N d cap A.usage (A.tasks.getD idx default) = some (b, c) →
      (greedyStep N d cap A idx).tasks =
        A.tasks.set idx { A.tasks.getD idx default with
          end_node := b, migration_cost := c } ∧
      ∀ n, (greedyStep N d cap A idx).usage n =
        (if n = b then A.usage n +
          ((A.tasks.getD idx default).demand : Int) else A.usage n)) ∧
    (∀ (A : Alloc) (idx : Nat),
      pickBest N d cap A.usage (A.tasks.getD idx default) = none →
      greedyStep N d cap A idx = A) ∧
    (∀ ts0 : List Task,
      (∀ t ∈ ts0, t.end_node = t.start_node ∧ t.migration_cost = 0) →
      ∀ t ∈ (solveAllocationGreedy N d cap ts0).tasks,
        (t.end_node = t.start_node ∧ t.migration_cost = 0) ∨
        (t.end_node ∈ rng N ∧ d t.start_node t.end_node ≠ INF ∧
         t.migration_cost = d t.start_node t.end_node * t.demand)) := by
  refine ⟨?_, ?_, ?_, ?_, ?_, ?_, ?_⟩
  · unfold greedyOrder
    haveI hTot : IsTotal Nat (fun a b =>
        (ts.getD b default).demand ≤ (ts.getD a default).demand) :=
      ⟨fun a b => le_total _ _⟩
    haveI hTrans : IsTrans Nat (fun a b =>
        (ts.getD b default).demand ≤ (ts.getD a default).demand) :=
      ⟨fun _ _ _ hab hbc => le_trans hbc hab⟩
    exact List.sorted_insertionSort _ _
  · unfold greedyOrder
    exact List.perm_insertionSort _ _
  · intro usage t b c h
    obtain ⟨h1, h2, h3, h4⟩ := pickBest_some N d cap usage t b c h
    unfold pickBest at h
    refine ⟨h1, ⟨h2, h3⟩, h4, ?_, ?_⟩
    · exact (pick_go_min d cap usage t (rng N) none b c h).1
    · exact pick_go_tie d cap usage t (rng N) none b c
        (List.pairwise_lt_range' 1 N) (fun b0 m0 hacc => by cases hacc) h
  · intro usage t
    unfold pickBest
    rw [pick_go_none d cap usage t (rng N) none]
    simp only [true_and]
  · intro A idx b c h
    unfold greedyStep
    dsimp only
    rw [h]
    exact ⟨rfl, fun n => rfl⟩
  · intro A idx h
    unfold greedyStep
    dsimp only
    rw [h]
  · exact greedy_shape N d cap

/-- Witness for C7: on the 2-node graph of `inpW` with empty usage, the
scan for the in-place unit task returns node 1 at cost 0; that choice is
minimal against the other feasible node (node 2, cost 1), and the scan on
the infeasible instance returns nothing. -/
theorem claim_C7_witness :
    (1 ∈ rng 2 ∧ Feasible dW inpW.cap (fun _ => 0) tSame 1 ∧
     (0 : Nat) = dW tSame.start_node 1 * tSame.demand ∧
     (∀ n ∈ rng 2, Feasible dW inpW.cap (fun _ => 0) tSame n →
       (0 : Nat) ≤ dW tSame.start_node n * tSame.demand) ∧
     (∀ n ∈ rng 2, Feasible dW inpW.cap (fun _ => 0) tSame n →
       dW tSame.start_node n * tSame.demand = 0 → 1 ≤ n)) ∧
    pickBest inpInfeas.N dInf inpInfeas.cap (fun _ => 0)
      (mkTask { id := 1, start_node := 1, demand := 5 }) = none := by
  constructor
  · exact (claim_C7 2 dW inpW.cap [tSame]).2.2.1 (fun _ => 0) tSame 1 0
      (by decide)
  · exact ((claim_C7 inpInfeas.N dInf inpInfeas.cap []).2.2.2.1
      (fun _ => 0) (mkTask { id := 1, start_node := 1, demand := 5 })).mpr
      (by
        intro n hn
        have h2 : n = 1 := List.mem_singleton.mp hn
        subst h2
        unfold Feasible
        decide)

/-! Link-contention counting for the Simulator (claim C6). -/

theorem moveCnt_cons (tasks : List Task) (i : Nat) (rest : List Nat)
    (u v : Nat) :
    moveCnt tasks (i :: rest) u v =
      moveCnt tasks rest u v +
      (if ((tasks.getD i default).current_pos_node = u ∧
           (tasks.getD i default).path.getD (tasks.getD i default).path_idx 0 = v) ∨
          ((tasks.getD i default).current_pos_node = v ∧
           (tasks.getD i default).path.getD (tasks.getD i default).path_idx 0 = u)
       then 1 else 0) := by
  unfold moveCnt
  rw [List.filter_cons]
  by_cases h : ((tasks.getD i default).current_pos_node = u ∧
      (tasks.getD i default).path.getD (tasks.getD i default).path_idx 0 = v) ∨
      ((tasks.getD i default).current_pos_node = v ∧
       (tasks.getD i default).path.getD (tasks.getD i default).path_idx 0 = u)
  · rw [if_pos (decide_eq_true h), if_pos h, List.length_cons]
  · rw [if_neg (fun hc => h (of_decide_eq_true hc)), if_neg h, Nat.add_zero]

theorem update2_pair_symm (f : Mat) (hf : ∀ x y, f x y = f y x)
    (a b v : Nat) : ∀ x y,
    update2 (update2 f a b v) b a v x y = update2 (update2 f a b v) b a v y x := by
  intro x y
  simp only [update2]
  by_cases h1 : x = b ∧ y = a
  · by_cases h2 : y = b ∧ x = a
    · rw [if_pos h1, if_pos h2]
    · rw [if_pos h1, if_neg h2, if_pos ⟨h1.2, h1.1⟩]
  · by_cases h2 : y = b ∧ x = a
    · rw [if_neg h1, if_pos h2, if_pos ⟨h2.2, h2.1⟩]
    · rw [if_neg h1, if_neg h2,
        if_neg (fun hc : x = a ∧ y = b => h2 ⟨hc.2, hc.1⟩),
        if_neg (fun hc : y = a ∧ x = b => h1 ⟨hc.2, hc.1⟩)]
      exact hf x y

theorem bandwidth_symm (inp : Input) :
    ∀ u v, bandwidth inp u v = bandwidth inp v u := by
  unfold bandwidth readEdges
  apply foldl_inv _ (fun S : Mat × Mat => ∀ u v, S.2 u v = S.2 v u)
  · intro u v; rfl
  · intro S e _ hS
    exact update2_pair_symm S.2 hS e.u e.v e.bw

theorem linkKey_symm (u v : Nat) : linkKey u v = linkKey v u := by
  unfold linkKey
  rcases Nat.lt_trichotomy u v with h | h | h
  · rw [if_pos h, if_neg (by omega)]
  · rw [h]
  · rw [if_neg (by omega), if_pos h]

theorem collect_le (adj : Mat) (tasks : List Task)
    (hsym : ∀ u v, adj u v = adj v u) :
    ∀ (L : List Nat) (lu : Nat → Nat) (u v : Nat),
      lu (linkKey u v) + moveCnt tasks (collectMoves adj tasks L lu) u v ≤
        max (adj u v) (lu (linkKey u v)) := by
  intro L
  induction L with
  | nil =>
    intro lu u v
    simp [collectMoves, moveCnt]
  | cons i L ih =>
    intro lu u v
    unfold collectMoves
    dsimp only
    split
    · exact ih lu u v
    · split
      · rename_i hacc
        rw [moveCnt_cons]
        have hih := ih (fun k =>
          if k = linkKey (tasks.getD i default).current_pos_node
            ((tasks.getD i default).path.getD (tasks.getD i default).path_idx 0)
          then lu k + 1 else lu k) u v
        by_cases hmatch :
            ((tasks.getD i default).current_pos_node = u ∧
             (tasks.getD i default).path.getD (tasks.getD i default).path_idx 0 = v) ∨
            ((tasks.getD i default).current_pos_node = v ∧
             (tasks.getD i default).path.getD (tasks.getD i default).path_idx 0 = u)
        · have hkey : linkKey (tasks.getD i default).current_pos_node
              ((tasks.getD i default).path.getD (tasks.getD i default).path_idx 0) =
              linkKey u v := by
            rcases hmatch with ⟨h1, h2⟩ | ⟨h1, h2⟩
            · rw [h1, h2]
            · rw [h1, h2]
              exact linkKey_symm v u
          have hadj : adj (tasks.getD i default).current_pos_node
              ((tasks.getD i default).path.getD (tasks.getD i default).path_idx 0) =
              adj u v := by
            rcases hmatch with ⟨h1, h2⟩ | ⟨h1, h2⟩
            · rw [h1, h2]
            · rw [h1, h2]
              exact hsym v u
          rw [if_pos hmatch]
          rw [hkey] at hih ⊢
          rw [if_pos rfl] at hih
          rw [hkey, hadj] at hacc
          omega
        · rw [if_neg hmatch]
          by_cases hcol : linkKey u v =
              linkKey (tasks.getD i default).current_pos_node
                ((tasks.getD i default).path.getD (tasks.getD i default).path_idx 0)
          · rw [if_pos hcol] at hih
            omega
          · rw [if_neg hcol] at hih
            omega
      · exact ih lu u v

theorem getD_set_ne (l : List Task) :
    ∀ (i j : Nat) (a dflt : Task), i ≠ j →
      (l.set i a).getD j dflt = l.getD j dflt := by
  induction l with
  | nil => intro i j a dflt _; rfl
  | cons x xs ih =>
    intro i j a dflt hne
    cases i with
    | zero =>
      cases j with
      | zero => exact absurd rfl hne
      | succ j => rfl
    | succ i =>
      cases j with
      | zero => rfl
      | succ j =>
        simp only [List.set_cons_succ, List.getD_cons_succ]
        exact ih i j a dflt (fun hc => hne (by rw [hc]))

theorem apply_logs (time : Nat) :
    ∀ (moved : List Nat) (st : List Task × List LogEntry),
      moved.Nodup →
      (moved.foldl (applyMove time) st).2 =
        st.2 ++ moved.map (stepLog time st.1) := by
  intro moved
  induction moved with
  | nil => intro st _; simp
  | cons i rest ih =>
    intro st hnd
    obtain ⟨hni, hnd2⟩ := List.nodup_cons.mp hnd
    rw [List.foldl_cons, ih (applyMove time st i) hnd2]
    have h2 : (applyMove time st i).2 = st.2 ++ [stepLog time st.1 i] := rfl
    have hgd : ∀ j, j ≠ i →
        (applyMove time st i).1.getD j default = st.1.getD j default := by
      intro j hj
      exact getD_set_ne st.1 i j _ _ (fun hc => hj hc.symm)
    have hmap : rest.map (stepLog time (applyMove time st i).1) =
        rest.map (stepLog time st.1) := by
      apply List.map_congr_left
      intro j hj
      unfold stepLog
      rw [hgd j (fun hc : j = i => hni (hc ▸ hj))]
    rw [h2, hmap, List.map_cons, List.append_assoc, List.singleton_append]

theorem collect_sublist (adj : Mat) (tasks : List Task) :
    ∀ (L : List Nat) (lu : Nat → Nat),
      (collectMoves adj tasks L lu).Sublist L := by
  intro L
  induction L with
  | nil => intro lu; exact List.Sublist.refl []
  | cons i L ih =>
    intro lu
    unfold collectMoves
    dsimp only
    split
    · exact (ih lu).cons i
    · split
      · exact (ih _).cons₂ i
      · exact (ih lu).cons i

theorem crossCount_append (l1 l2 : List LogEntry) (t u v : Nat) :
    crossCount (l1 ++ l2) t u v = crossCount l1 t u v + crossCount l2 t u v := by
  unfold crossCount
  rw [List.filter_append, List.length_append]

theorem crossCount_late (logs : List LogEntry) (T t u v : Nat)
    (h : ∀ l ∈ logs, l.time ≤ T) (ht : T < t) :
    crossCount logs t u v = 0 := by
  unfold crossCount
  rw [List.length_eq_zero, List.filter_eq_nil_iff]
  intro l hl
  simp only [decide_eq_true_eq, not_and]
  intro hteq
  exact absurd hteq (by have := h l hl; omega)

theorem crossCount_map_moved (tasks : List Task) (moved : List Nat)
    (time t u v : Nat) :
    crossCount (moved.map (stepLog time tasks)) t u v =
      if t = time then moveCnt tasks moved u v else 0 := by
  unfold crossCount moveCnt stepLog
  rw [List.filter_map, List.length_map]
  split
  · rename_i hteq
    congr 1
    apply List.filter_congr
    intro i _
    simp only [Function.comp_apply, decide_eq_decide]
    constructor
    · intro h
      exact h.2
    · intro h
      exact ⟨hteq.symm, h⟩
  · rename_i hteq
    rw [List.length_eq_zero, List.filter_eq_nil_iff]
    intro i _
    simp only [Function.comp_apply, decide_eq_true_eq, not_and]
    intro hc
    exact absurd hc.symm hteq

/-- Bandwidth soundness and clock monotonicity through the simulation
loop: all logged times stay at most the clock, and every (time, link)
cell of the log respects the link's bandwidth. -/
theorem simLoop_band (adj : Mat) (hsym : ∀ u v, adj u v = adj v u) :
    ∀ (fuel : Nat) (st : SimState),
      (∀ l ∈ st.logs, l.time ≤ st.time) →
      (∀ t u v, crossCount st.logs t u v ≤ adj u v) →
      (∀ l ∈ (simLoop adj fuel st).logs, l.time ≤ (simLoop adj fuel st).time) ∧
      (∀ t u v, crossCount (simLoop adj fuel st).logs t u v ≤ adj u v) := by
  intro fuel
  induction fuel with
  | zero => intro st h1 h2; exact ⟨h1, h2⟩
  | succ fuel ih =>
    intro st h1 h2
    unfold simLoop
    dsimp only
    split
    · split
      · exact ⟨fun l hl => le_trans (h1 l hl) (Nat.le_succ _), h2⟩
      · rename_i hne
        have hnd : (collectMoves adj st.tasks
            (List.range st.tasks.length) (fun _ => 0)).Nodup :=
          (collect_sublist adj st.tasks _ _).nodup (List.nodup_range _)
        have hlogs := apply_logs (st.time + 1)
          (collectMoves adj st.tasks (List.range st.tasks.length) (fun _ => 0))
          (st.tasks, st.logs) hnd
        apply ih
        · intro l hl
          dsimp only at hlogs hl ⊢
          rw [hlogs] at hl
          rcases List.mem_append.mp hl with hl1 | hl2
          · exact le_trans (h1 l hl1) (Nat.le_succ _)
          · obtain ⟨i, _, hi⟩ := List.mem_map.mp hl2
            rw [← hi]
            rfl
        · intro t u v
          dsimp only at hlogs ⊢
          rw [hlogs, crossCount_append, crossCount_map_moved]
          by_cases ht : t = st.time + 1
          · rw [if_pos ht]
            rw [crossCount_late st.logs st.time t u v h1 (by omega)]
            have hcl := collect_le adj st.tasks hsym
              (List.range st.tasks.length) (fun _ => 0) u v
            omega
          · rw [if_neg ht, Nat.add_zero]
            exact h2 t u v
    · exact ⟨h1, h2⟩

/-- The claim of C6: in every simulated time step and for every link,
the number of crossings of that link in that step (counted per unordered
node pair, regardless of direction) is at most the link's bandwidth. -/
theorem claim_C6 (inp : Input) (moves : List SAMove) (fuel : Nat) :
    ∀ t u v, crossCount (finalSim inp moves fuel).logs t u v ≤
      bandwidth inp u v := by
  intro t u v
  unfold finalSim simulateMigration
  exact (simLoop_band (bandwidth inp) (bandwidth_symm inp) _ _
    (fun l hl => absurd hl (List.not_mem_nil l))
    (fun t u v => by
      show crossCount [] t u v ≤ bandwidth inp u v
      exact Nat.zero_le _)).2 t u v

/-- Witness for C1: on `inpW` the Planner's counters respect capacity at
node 1, and since the Planner places its one task (node 1, usage 1 of 5)
the placed-every-task condition holds, so the post-restore state does
too. -/
theorem claim_C1_witness :
    ((greedyAlloc inpW).usage 1 ≤ (inpW.cap 1 : Int)) ∧
    ((finalAlloc inpW []).usage 1 ≤ (inpW.cap 1 : Int)) :=
  ⟨(claim_C1 inpW []).1 1,
   (claim_C1 inpW []).2.2 (by
    intro n
    by_cases h : n = 1
    · subst h; decide
    · show (if n = 1 then (0 : Int) + 1 else 0) = _
      rw [if_neg h]
      show (0 : Int) = (if 1 = n then ((1 : Nat) : Int) else 0) + 0
      rw [if_neg (fun hc => h hc.symm)]
      rfl) 1⟩

/-! Floyd–Warshall correctness (claim C2), part 1: facts about the base
matrix and the functional behaviour of one relaxation. -/

theorem readEdges_link (es : List Edge) :
    ∀ a b, a ≠ b → (readEdges es).1 a b ≠ INF → LinkPred es a b := by
  unfold readEdges
  apply foldl_inv _ (fun S : Mat × Mat =>
    ∀ a b, a ≠ b → S.1 a b ≠ INF → LinkPred es a b)
  · intro a b hab h
    exact absurd (by show dist0 a b = INF; unfold dist0; rw [if_neg hab]) h
  · intro S e he hS a b hab h
    unfold applyEdge at h
    dsimp only at h
    by_cases hc : e.cost < S.1 e.u e.v
    · rw [if_pos hc] at h
      simp only [update2] at h
      by_cases h1 : a = e.v ∧ b = e.u
      · exact ⟨e, he, Or.inr ⟨h1.2.symm, h1.1.symm⟩⟩
      · rw [if_neg h1] at h
        by_cases h2 : a = e.u ∧ b = e.v
        · exact ⟨e, he, Or.inl ⟨h2.1.symm, h2.2.symm⟩⟩
        · rw [if_neg h2] at h
          exact hS a b hab h
    · rw [if_neg hc] at h
      exact hS a b hab h

theorem readEdges_pos (es : List Edge) (hpos : ∀ e ∈ es, 1 ≤ e.cost) :
    ∀ a b, a ≠ b → (readEdges es).1 a b ≠ INF → 1 ≤ (readEdges es).1 a b := by
  unfold readEdges
  apply foldl_inv _ (fun S : Mat × Mat =>
    ∀ a b, a ≠ b → S.1 a b ≠ INF → 1 ≤ S.1 a b)
  · intro a b hab h
    exact absurd (by show dist0 a b = INF; unfold dist0; rw [if_neg hab]) h
  · intro S e he hS a b hab h
    unfold applyEdge at h ⊢
    dsimp only at h ⊢
    by_cases hc : e.cost < S.1 e.u e.v
    · rw [if_pos hc] at h ⊢
      simp only [update2] at h ⊢
      by_cases h1 : a = e.v ∧ b = e.u
      · rw [if_pos h1]
        exact hpos e he
      · rw [if_neg h1] at h ⊢
        by_cases h2 : a = e.u ∧ b = e.v
        · rw [if_pos h2]
          exact hpos e he
        · rw [if_neg h2] at h ⊢
          exact hS a b hab h
    · rw [if_neg hc] at h ⊢
      exact hS a b hab h

theorem relaxVal_col (k : Nat) (S : FWState) (i : Nat) (hk0 : S.d k k = 0) :
    relaxVal k S i k = S.d i k := by
  unfold relaxVal
  rw [if_neg]
  rintro ⟨_, _, h3⟩
  omega

theorem relaxVal_row (k : Nat) (S : FWState) (j : Nat) (hk0 : S.d k k = 0) :
    relaxVal k S k j = S.d k j := by
  unfold relaxVal
  rw [if_neg]
  rintro ⟨_, _, h3⟩
  omega

theorem relaxNh_col (k : Nat) (S : FWState) (i : Nat) (hk0 : S.d k k = 0) :
    relaxNh k S i k = S.nh i k := by
  unfold relaxNh
  rw [if_neg]
  rintro ⟨_, _, h3⟩
  omega

theorem relaxVal_diag (k : Nat) (S : FWState) (i : Nat)
    (hii : S.d i i = 0) :
    relaxVal k S i i = S.d i i := by
  unfold relaxVal
  rw [if_neg]
  rintro ⟨_, _, h3⟩
  omega

theorem relaxVal_le_old (k : Nat) (S : FWState) (i j : Nat) :
    relaxVal k S i j ≤ S.d i j := by
  unfold relaxVal
  split
  · rename_i hg
    omega
  · exact le_refl _

theorem relaxVal_le_sum (k : Nat) (S : FWState) (i j : Nat)
    (hle : ∀ a b, S.d a b ≤ INF) :
    relaxVal k S i j ≤ S.d i k + S.d k j := by
  unfold relaxVal
  split
  · exact le_refl _
  · rename_i hg
    by_cases h1 : S.d i k = INF
    · have := hle i j
      omega
    · by_cases h2 : S.d k j = INF
      · have := hle i j
        omega
      · have h3 : ¬(S.d i k + S.d k j < S.d i j) := fun hlt => hg ⟨h1, h2, hlt⟩
        omega

theorem relax_d (k : Nat) (T : FWState) (i j a b : Nat) :
    (relax k T i j).d a b =
      if a = i ∧ b = j then
        (if T.d i k ≠ INF ∧ T.d k j ≠ INF ∧ T.d i k + T.d k j < T.d i j
         then T.d i k + T.d k j else T.d i j)
      else T.d a b := by
  unfold relax
  split
  · dsimp only
    simp only [update2]
  · split
    · rename_i hab
      rw [hab.1, hab.2]
    · rfl

theorem relax_nh (k : Nat) (T : FWState) (i j a b : Nat) :
    (relax k T i j).nh a b =
      if a = i ∧ b = j then
        (if T.d i k ≠ INF ∧ T.d k j ≠ INF ∧ T.d i k + T.d k j < T.d i j
         then T.nh i k else T.nh i j)
      else T.nh a b := by
  unfold relax
  split
  · dsimp only
    simp only [update2]
  · split
    · rename_i hab
      rw [hab.1, hab.2]
    · rfl

/-! Floyd–Warshall correctness, part 2: the in-place pivot pass equals
its functional description (rows `k` and column `k` are fixed points, so
every cell is relaxed exactly once against stable pivot values). -/

theorem rowfold_char (k i : Nat) (S : FWState) (hk0 : S.d k k = 0) :
    ∀ (js done : List Nat) (T : FWState),
      (∀ y, T.d k y = S.d k y) →
      (∀ y, T.d i y = if y ∈ done then relaxVal k S i y else S.d i y) →
      (∀ y, T.nh i y = if y ∈ done then relaxNh k S i y else S.nh i y) →
      (∀ y, (js.foldl (fun U j => relax k U i j) T).d i y =
         if y ∈ done ∨ y ∈ js then relaxVal k S i y else S.d i y) ∧
      (∀ y, (js.foldl (fun U j => relax k U i j) T).nh i y =
         if y ∈ done ∨ y ∈ js then relaxNh k S i y else S.nh i y) ∧
      (∀ a b, a ≠ i →
        (js.foldl (fun U j => relax k U i j) T).d a b = T.d a b ∧
        (js.foldl (fun U j => relax k U i j) T).nh a b = T.nh a b) := by
  intro js
  induction js with
  | nil =>
    intro done T hrowk hrowd hrown
    refine ⟨?_, ?_, fun a b _ => ⟨rfl, rfl⟩⟩
    · intro y
      rw [List.foldl_nil, hrowd y]
      by_cases hy : y ∈ done
      · rw [if_pos hy, if_pos (Or.inl hy)]
      · rw [if_neg hy, if_neg (fun hc => hc.elim hy (List.not_mem_nil y))]
    · intro y
      rw [List.foldl_nil, hrown y]
      by_cases hy : y ∈ done
      · rw [if_pos hy, if_pos (Or.inl hy)]
      · rw [if_neg hy, if_neg (fun hc => hc.elim hy (List.not_mem_nil y))]
  | cons j js ih =>
    intro done T hrowk hrowd hrown
    have hshuf : ∀ y : Nat, (y ∈ j :: done ∨ y ∈ js) ↔ (y ∈ done ∨ y ∈ j :: js) := by
      intro y
      simp only [List.mem_cons]
      tauto
    have hTik : T.d i k = S.d i k := by
      rw [hrowd k]
      split
      · exact relaxVal_col k S i hk0
      · rfl
    have hTnik : T.nh i k = S.nh i k := by
      rw [hrown k]
      split
      · exact relaxNh_col k S i hk0
      · rfl
    have hTkk : T.d k k = 0 := by rw [hrowk k, hk0]
    by_cases hjdone : j ∈ done
    · have hTij : T.d i j = relaxVal k S i j := by rw [hrowd j, if_pos hjdone]
      have hfix : relax k T i j = T := by
        unfold relax
        rw [if_neg]
        rintro ⟨h1, h2, h3⟩
        rw [hTik] at h1
        rw [hrowk j] at h2
        rw [hTik, hrowk j, hTij] at h3
        revert h3
        unfold relaxVal
        split
        · omega
        · rename_i hg
          intro h3
          exact hg ⟨h1, h2, h3⟩
      have hrowd2 : ∀ y, T.d i y =
          if y ∈ j :: done then relaxVal k S i y else S.d i y := by
        intro y
        rw [hrowd y]
        by_cases hy : y ∈ done
        · rw [if_pos hy, if_pos (List.mem_cons_of_mem j hy)]
        · rw [if_neg hy, if_neg (fun hc => (List.mem_cons.mp hc).elim
            (fun he => hy (by rw [he]; exact hjdone)) hy)]
      have hrown2 : ∀ y, T.nh i y =
          if y ∈ j :: done then relaxNh k S i y else S.nh i y := by
        intro y
        rw [hrown y]
        by_cases hy : y ∈ done
        · rw [if_pos hy, if_pos (List.mem_cons_of_mem j hy)]
        · rw [if_neg hy, if_neg (fun hc => (List.mem_cons.mp hc).elim
            (fun he => hy (by rw [he]; exact hjdone)) hy)]
      obtain ⟨ih1, ih2, ih3⟩ := ih (j :: done) T hrowk hrowd2 hrown2
      rw [List.foldl_cons, hfix]
      refine ⟨?_, ?_, ih3⟩
      · intro y
        rw [ih1 y]
        exact if_congr (hshuf y) rfl rfl
      · intro y
        rw [ih2 y]
        exact if_congr (hshuf y) rfl rfl
    · have hTij : T.d i j = S.d i j := by rw [hrowd j, if_neg hjdone]
      have hTnij : T.nh i j = S.nh i j := by rw [hrown j, if_neg hjdone]
      have hrowk2 : ∀ y, (relax k T i j).d k y = S.d k y := by
        intro y
        rw [relax_d]
        split
        · rename_i hky
          obtain ⟨hki, hyj⟩ := hky
          rw [if_neg]
          · rw [hTij, ← hki, ← hyj]
          · rintro ⟨h1, h2, h3⟩
            rw [← hki] at h3
            rw [hTkk] at h3
            omega
        · exact hrowk y
      have hrowd2 : ∀ y, (relax k T i j).d i y =
          if y ∈ j :: done then relaxVal k S i y else S.d i y := by
        intro y
        rw [relax_d]
        by_cases hyj : y = j
        · rw [hyj, if_pos ⟨rfl, rfl⟩, hTik, hrowk j, hTij,
            if_pos (List.mem_cons_self j done)]
          rfl
        · rw [if_neg (fun hc => hyj hc.2), hrowd y]
          by_cases hy : y ∈ done
          · rw [if_pos hy, if_pos (List.mem_cons_of_mem j hy)]
          · rw [if_neg hy, if_neg (fun hc => (List.mem_cons.mp hc).elim hyj hy)]
      have hrown2 : ∀ y, (relax k T i j).nh i y =
          if y ∈ j :: done then relaxNh k S i y else S.nh i y := by
        intro y
        rw [relax_nh]
        by_cases hyj : y = j
        · rw [hyj, if_pos ⟨rfl, rfl⟩, hTik, hrowk j, hTij, hTnik, hTnij,
            if_pos (List.mem_cons_self j done)]
          rfl
        · rw [if_neg (fun hc => hyj hc.2), hrown y]
          by_cases hy : y ∈ done
          · rw [if_pos hy, if_pos (List.mem_cons_of_mem j hy)]
          · rw [if_neg hy, if_neg (fun hc => (List.mem_cons.mp hc).elim hyj hy)]
      obtain ⟨ih1, ih2, ih3⟩ := ih (j :: done) (relax k T i j) hrowk2 hrowd2 hrown2
      rw [List.foldl_cons]
      refine ⟨?_, ?_, ?_⟩
      · intro y
        rw [ih1 y]
        exact if_congr (hshuf y) rfl rfl
      · intro y
        rw [ih2 y]
        exact if_congr (hshuf y) rfl rfl
      · intro a b ha
        obtain ⟨h1, h2⟩ := ih3 a b ha
        constructor
        · rw [h1, relax_d, if_neg (fun hc => ha hc.1)]
        · rw [h2, relax_nh, if_neg (fun hc => ha hc.1)]

theorem pivotfold_char (N k : Nat) (S : FWState) (hdiag : DiagZero S.d) :
    ∀ (is doneR : List Nat) (T : FWState),
      (∀ a ∈ is, a ∉ doneR) →
      is.Nodup →
      (∀ a b, T.d a b =
        if a ∈ doneR ∧ b ∈ rng N then relaxVal k S a b else S.d a b) →
      (∀ a b, T.nh a b =
        if a ∈ doneR ∧ b ∈ rng N then relaxNh k S a b else S.nh a b) →
      (∀ a b, (is.foldl (relaxRow N k) T).d a b =
         if (a ∈ doneR ∨ a ∈ is) ∧ b ∈ rng N then relaxVal k S a b else S.d a b) ∧
      (∀ a b, (is.foldl (relaxRow N k) T).nh a b =
         if (a ∈ doneR ∨ a ∈ is) ∧ b ∈ rng N then relaxNh k S a b else S.nh a b) := by
  intro is
  induction is with
  | nil =>
    intro doneR T _ _ hd hn
    refine ⟨?_, ?_⟩ <;> intro a b
    · rw [List.foldl_nil, hd a b]
      refine if_congr ?_ rfl rfl
      constructor
      · exact fun h => ⟨Or.inl h.1, h.2⟩
      · rintro ⟨h1 | h1, h2⟩
        · exact ⟨h1, h2⟩
        · exact absurd h1 (List.not_mem_nil a)
    · rw [List.foldl_nil, hn a b]
      refine if_congr ?_ rfl rfl
      constructor
      · exact fun h => ⟨Or.inl h.1, h.2⟩
      · rintro ⟨h1 | h1, h2⟩
        · exact ⟨h1, h2⟩
        · exact absurd h1 (List.not_mem_nil a)
  | cons i rest ih =>
    intro doneR T huni hnd hd hn
    obtain ⟨hirest, hndrest⟩ := List.nodup_cons.mp hnd
    have hiR : i ∉ doneR := huni i (List.mem_cons_self i rest)
    have hshufR : ∀ a : Nat, ((a ∈ i :: doneR ∨ a ∈ rest)) ↔
        ((a ∈ doneR ∨ a ∈ i :: rest)) := by
      intro a
      simp only [List.mem_cons]
      tauto
    have hrowk : ∀ y, T.d k y = S.d k y := by
      intro y
      rw [hd k y]
      split
      · exact relaxVal_row k S y (hdiag k)
      · rfl
    have hrowd : ∀ y, T.d i y =
        if y ∈ ([] : List Nat) then relaxVal k S i y else S.d i y := by
      intro y
      rw [hd i y, if_neg (fun hc => hiR hc.1), if_neg (List.not_mem_nil y)]
    have hrown : ∀ y, T.nh i y =
        if y ∈ ([] : List Nat) then relaxNh k S i y else S.nh i y := by
      intro y
      rw [hn i y, if_neg (fun hc => hiR hc.1), if_neg (List.not_mem_nil y)]
    obtain ⟨r1, r2, r3⟩ :=
      rowfold_char k i S (hdiag k) (rng N) [] T hrowk hrowd hrown
    have hd2 : ∀ a b, (relaxRow N k T i).d a b =
        if a ∈ i :: doneR ∧ b ∈ rng N then relaxVal k S a b else S.d a b := by
      intro a b
      by_cases hai : a = i
      · rw [hai]
        unfold relaxRow
        rw [r1 b]
        refine if_congr ?_ rfl rfl
        constructor
        · rintro (h1 | h1)
          · exact absurd h1 (List.not_mem_nil b)
          · exact ⟨List.mem_cons_self i doneR, h1⟩
        · exact fun h => Or.inr h.2
      · unfold relaxRow
        rw [(r3 a b hai).1, hd a b]
        refine if_congr ?_ rfl rfl
        constructor
        · exact fun h => ⟨List.mem_cons_of_mem i h.1, h.2⟩
        · rintro ⟨h1, h2⟩
          rcases List.mem_cons.mp h1 with he | h1
          · exact absurd he hai
          · exact ⟨h1, h2⟩
    have hn2 : ∀ a b, (relaxRow N k T i).nh a b =
        if a ∈ i :: doneR ∧ b ∈ rng N then relaxNh k S a b else S.nh a b := by
      intro a b
      by_cases hai : a = i
      · rw [hai]
        unfold relaxRow
        rw [r2 b]
        refine if_congr ?_ rfl rfl
        constructor
        · rintro (h1 | h1)
          · exact absurd h1 (List.not_mem_nil b)
          · exact ⟨List.mem_cons_self i doneR, h1⟩
        · exact fun h => Or.inr h.2
      · unfold relaxRow
        rw [(r3 a b hai).2, hn a b]
        refine if_congr ?_ rfl rfl
        constructor
        · exact fun h => ⟨List.mem_cons_of_mem i h.1, h.2⟩
        · rintro ⟨h1, h2⟩
          rcases List.mem_cons.mp h1 with he | h1
          · exact absurd he hai
          · exact ⟨h1, h2⟩
    have huni2 : ∀ a ∈ rest, a ∉ i :: doneR := by
      intro a ha hc
      rcases List.mem_cons.mp hc with he | hc2
      · exact hirest (he ▸ ha)
      · exact huni a (List.mem_cons_of_mem i ha) hc2
    obtain ⟨f1, f2⟩ := ih (i :: doneR) (relaxRow N k T i) huni2 hndrest hd2 hn2
    rw [List.foldl_cons]
    refine ⟨?_, ?_⟩ <;> intro a b
    · rw [f1 a b]
      exact if_congr (and_congr_left (fun _ => hshufR a)) rfl rfl
    · rw [f2 a b]
      exact if_congr (and_congr_left (fun _ => hshufR a)) rfl rfl

theorem pivot_char (N k : Nat) (S : FWState) (hdiag : DiagZero S.d) :
    (∀ a b, (pivot N S k).d a b =
      if a ∈ rng N ∧ b ∈ rng N then relaxVal k S a b else S.d a b) ∧
    (∀ a b, (pivot N S k).nh a b =
      if a ∈ rng N ∧ b ∈ rng N then relaxNh k S a b else S.nh a b) := by
  unfold pivot
  obtain ⟨f1, f2⟩ := pivotfold_char N k S hdiag (rng N) [] S
    (fun a _ h => List.not_mem_nil a h)
    (List.nodup_range' 1 N)
    (fun a b => by rw [if_neg (fun hc => List.not_mem_nil a hc.1)])
    (fun a b => by rw [if_neg (fun hc => List.not_mem_nil a hc.1)])
  constructor <;> intro a b
  · rw [f1 a b]
    refine if_congr (and_congr_left (fun _ => ?_)) rfl rfl
    constructor
    · rintro (h1 | h1)
      · exact absurd h1 (List.not_mem_nil a)
      · exact h1
    · exact Or.inr
  · rw [f2 a b]
    refine if_congr (and_congr_left (fun _ => ?_)) rfl rfl
    constructor
    · rintro (h1 | h1)
      · exact absurd h1 (List.not_mem_nil a)
      · exact h1
    · exact Or.inr

/-! Floyd–Warshall correctness, part 3: one pivot pass preserves the
running invariant and adds its pivot to the processed set of the partial
triangle inequality. -/

theorem pivot_good (N : Nat) (B : Mat) (S : FWState) (K : List Nat) (m : Nat)
    (hm : m ∈ rng N) (hg : GoodInv N B S) (ht : TriK N S K) :
    GoodInv N B (pivot N S m) ∧ TriK N (pivot N S m) (m :: K) := by
  obtain ⟨h1, h2, h3, h4⟩ := hg
  obtain ⟨pd, pn⟩ := pivot_char N m S h1
  have hdm : ∀ a b, (pivot N S m).d a b ≤ S.d a b := by
    intro a b
    rw [pd a b]
    split
    · exact relaxVal_le_old m S a b
    · exact Nat.le_refl _
  have hdsum : ∀ a b, a ∈ rng N → b ∈ rng N →
      (pivot N S m).d a b ≤ S.d a m + S.d m b := by
    intro a b ha hb
    rw [pd a b, if_pos ⟨ha, hb⟩]
    exact relaxVal_le_sum m S a b h3
  refine ⟨⟨?_, ?_, ?_, ?_⟩, ?_⟩
  · intro x
    rw [pd x x]
    split
    · rw [relaxVal_diag m S x (h1 x)]
      exact h1 x
    · exact h1 x
  · intro i j
    exact Nat.le_trans (hdm i j) (h2 i j)
  · intro i j
    exact Nat.le_trans (hdm i j) (h3 i j)
  · intro i hi j hj hij hne
    rw [pd i j, if_pos ⟨hi, hj⟩] at hne
    rw [pd i j, if_pos ⟨hi, hj⟩, pn i j, if_pos ⟨hi, hj⟩]
    by_cases hG : S.d i m ≠ INF ∧ S.d m j ≠ INF ∧ S.d i m + S.d m j < S.d i j
    · have hval : relaxVal m S i j = S.d i m + S.d m j := by
        unfold relaxVal
        rw [if_pos hG]
      have hnh : relaxNh m S i j = S.nh i m := by
        unfold relaxNh
        rw [if_pos hG]
      rw [hval, hnh]
      have him : i ≠ m := by
        intro he
        obtain ⟨_, _, g3⟩ := hG
        rw [he, h1 m] at g3
        omega
      obtain ⟨n1, n2, n3, n4⟩ := h4 i hi m hm him hG.1
      refine ⟨n1, n2, n3, ?_⟩
      have hd2 : (pivot N S m).d (S.nh i m) j ≤ S.d (S.nh i m) m + S.d m j :=
        hdsum (S.nh i m) j n1 hj
      omega
    · have hval : relaxVal m S i j = S.d i j := by
        unfold relaxVal
        rw [if_neg hG]
      have hnh : relaxNh m S i j = S.nh i j := by
        unfold relaxNh
        rw [if_neg hG]
      rw [hval] at hne
      rw [hval, hnh]
      obtain ⟨n1, n2, n3, n4⟩ := h4 i hi j hj hij hne
      refine ⟨n1, n2, n3, ?_⟩
      have hd2 : (pivot N S m).d (S.nh i j) j ≤ S.d (S.nh i j) j := hdm _ _
      omega
  · intro k hk i hi j hj
    rcases List.mem_cons.mp hk with he | hkK
    · subst he
      rw [pd i j, if_pos ⟨hi, hj⟩, pd i k, if_pos ⟨hi, hm⟩,
        pd k j, if_pos ⟨hm, hj⟩, relaxVal_col k S i (h1 k),
        relaxVal_row k S j (h1 k)]
      exact relaxVal_le_sum k S i j h3
    · have t1 : S.d i j ≤ S.d i k + S.d k j := ht k hkK i hi j hj
      have t2 : S.d m j ≤ S.d m k + S.d k j := ht k hkK m hm j hj
      have t3 : S.d i m ≤ S.d i k + S.d k m := ht k hkK i hi m hm
      have l1 : (pivot N S m).d i j ≤ S.d i j := hdm i j
      have l2 : (pivot N S m).d i j ≤ S.d i m + S.d m j := hdsum i j hi hj
      rw [pd i k, pd k j]
      by_cases hkr : k ∈ rng N
      · rw [if_pos ⟨hi, hkr⟩, if_pos ⟨hkr, hj⟩]
        unfold relaxVal
        split_ifs with g1 g2 <;> omega
      · rw [if_neg (fun hc => hkr hc.2), if_neg (fun hc => hkr hc.1)]
        omega

/-- One pivot pass preserves termination of the `next_hop` walk, with no
assumption on link costs: along the new walk the distance entry never
grows, a plateau step from an entry whose value did not change follows
the old pointer (so the old walk toward `j` shortens), and a plateau
step from an improved entry follows the old first hop toward the pivot
(so the old walk toward the pivot shortens, or the successor's value is
unchanged and the first case takes over). -/
theorem pivot_reach (N : Nat) (B : Mat) (S : FWState) (k : Nat)
    (hk : k ∈ rng N) (hg : GoodInv N B S)
    (hre : ∀ i ∈ rng N, ∀ j ∈ rng N, i ≠ j → S.d i j ≠ INF →
      ∃ p, NhReaches S.nh j i p) :
    ∀ i ∈ rng N, ∀ j ∈ rng N, i ≠ j → (pivot N S k).d i j ≠ INF →
      ∃ p, NhReaches (pivot N S k).nh j i p := by
  obtain ⟨h1, h2, h3, h4⟩ := hg
  obtain ⟨pd, pn⟩ := pivot_char N k S h1
  have hdm : ∀ a b, (pivot N S k).d a b ≤ S.d a b := by
    intro a b
    rw [pd a b]
    split
    · exact relaxVal_le_old k S a b
    · exact Nat.le_refl _
  have hdsum : ∀ a b, a ∈ rng N → b ∈ rng N →
      (pivot N S k).d a b ≤ S.d a k + S.d k b := by
    intro a b ha hb
    rw [pd a b, if_pos ⟨ha, hb⟩]
    exact relaxVal_le_sum k S a b h3
  intro i hi j hj
  have fd : ∀ x, x ∈ rng N → (pivot N S k).d x j = relaxVal k S x j := by
    intro x hx
    rw [pd x j, if_pos ⟨hx, hj⟩]
  have fn : ∀ x, x ∈ rng N → (pivot N S k).nh x j = relaxNh k S x j := by
    intro x hx
    rw [pn x j, if_pos ⟨hx, hj⟩]
  have hprep : ∀ (x : Nat) (p : List Nat), x ≠ j →
      NhReaches (pivot N S k).nh j ((pivot N S k).nh x j) p →
      ∃ p2, NhReaches (pivot N S k).nh j x p2 :=
    fun x p hxj htr => ⟨(pivot N S k).nh x j :: p, NhReaches.step x p hxj htr⟩
  have step : ∀ D : Nat,
      (∀ y, y ∈ rng N → y ≠ j → (pivot N S k).d y j ≠ INF →
        (pivot N S k).d y j < D → ∃ p, NhReaches (pivot N S k).nh j y p) →
      ∀ x, x ∈ rng N → x ≠ j → (pivot N S k).d x j ≠ INF →
        (pivot N S k).d x j ≤ D → ∃ p, NhReaches (pivot N S k).nh j x p := by
    intro D IH1
    have hU : ∀ (q : List Nat), ∀ (x : Nat), x ∈ rng N → x ≠ j →
        (pivot N S k).d x j ≠ INF → (pivot N S k).d x j ≤ D →
        (pivot N S k).d x j = S.d x j → NhReaches S.nh j x q →
        ∃ p, NhReaches (pivot N S k).nh j x p := by
      intro q
      induction q with
      | nil =>
        intro x hx hxj hne hD hval htr
        cases htr
        exact absurd rfl hxj
      | cons h0 q2 ih =>
        intro x hx hxj hne hD hval htr
        cases htr with
        | step _ _ h5 htail =>
          have hnx : (pivot N S k).nh x j = S.nh x j := by
            rw [fn x hx]
            rw [fd x hx] at hval
            unfold relaxVal at hval
            unfold relaxNh
            by_cases hG : S.d x k ≠ INF ∧ S.d k j ≠ INF ∧
                S.d x k + S.d k j < S.d x j
            · rw [if_pos hG] at hval
              exact absurd hval (Nat.ne_of_lt hG.2.2)
            · rw [if_neg hG]
          have hSne : S.d x j ≠ INF := by rw [← hval]; exact hne
          by_cases hhj : S.nh x j = j
          · refine hprep x [] hxj ?_
            rw [hnx, hhj]
            exact NhReaches.done
          · obtain ⟨m1, m2, m3, m4⟩ := h4 x hx j hj hxj hSne
            have hle1 : (pivot N S k).d (S.nh x j) j ≤ S.d (S.nh x j) j :=
              hdm _ _
            have hfin : (pivot N S k).d (S.nh x j) j ≠ INF := by
              have h6 : S.d x j ≤ INF := h3 x j
              omega
            by_cases hlt :
                (pivot N S k).d (S.nh x j) j < (pivot N S k).d x j
            · obtain ⟨p, hp⟩ := IH1 (S.nh x j) m1 hhj hfin (by omega)
              exact hprep x p hxj (by rw [hnx]; exact hp)
            · have hplat :
                  (pivot N S k).d (S.nh x j) j = S.d (S.nh x j) j := by
                omega
              obtain ⟨p, hp⟩ :=
                ih (S.nh x j) m1 hhj hfin (by omega) hplat htail
              exact hprep x p hxj (by rw [hnx]; exact hp)
    have hI : ∀ (q : List Nat), ∀ (x : Nat), x ∈ rng N → x ≠ j →
        (pivot N S k).d x j ≠ INF → (pivot N S k).d x j ≤ D →
        (S.d x k ≠ INF ∧ S.d k j ≠ INF ∧ S.d x k + S.d k j < S.d x j) →
        NhReaches S.nh k x q →
        ∃ p, NhReaches (pivot N S k).nh j x p := by
      intro q
      induction q with
      | nil =>
        intro x hx hxj hne hD hG htr
        cases htr
        obtain ⟨_, _, hlt⟩ := hG
        rw [h1 k] at hlt
        exact absurd hlt (by omega)
      | cons h0 q2 ih =>
        intro x hx hxj hne hD hG htr
        cases htr with
        | step _ _ hxk htail =>
          have hnx : (pivot N S k).nh x j = S.nh x k := by
            rw [fn x hx]
            unfold relaxNh
            rw [if_pos hG]
          have hvx : (pivot N S k).d x j = S.d x k + S.d k j := by
            rw [fd x hx]
            unfold relaxVal
            rw [if_pos hG]
          obtain ⟨m1, m2, m3, m4⟩ := h4 x hx k hk hxk hG.1
          by_cases hhj : S.nh x k = j
          · refine hprep x [] hxj ?_
            rw [hnx, hhj]
            exact NhReaches.done
          · have hsum : (pivot N S k).d (S.nh x k) j ≤
                S.d (S.nh x k) k + S.d k j :=
              hdsum (S.nh x k) j m1 hj
            have hfin : (pivot N S k).d (S.nh x k) j ≠ INF := by
              have h6 : S.d x j ≤ INF := h3 x j
              have h7 : (pivot N S k).d x j ≤ S.d x j := hdm x j
              omega
            by_cases hlt :
                (pivot N S k).d (S.nh x k) j < (pivot N S k).d x j
            · obtain ⟨p, hp⟩ := IH1 (S.nh x k) m1 hhj hfin (by omega)
              exact hprep x p hxj (by rw [hnx]; exact hp)
            · by_cases hG2 : S.d (S.nh x k) k ≠ INF ∧ S.d k j ≠ INF ∧
                  S.d (S.nh x k) k + S.d k j < S.d (S.nh x k) j
              · obtain ⟨p, hp⟩ :=
                  ih (S.nh x k) m1 hhj hfin (by omega) hG2 htail
                exact hprep x p hxj (by rw [hnx]; exact hp)
              · have hvh : (pivot N S k).d (S.nh x k) j =
                    S.d (S.nh x k) j := by
                  rw [fd _ m1]
                  unfold relaxVal
                  rw [if_neg hG2]
                have hneh : S.d (S.nh x k) j ≠ INF := by
                  rw [← hvh]; exact hfin
                obtain ⟨q3, hq3⟩ := hre (S.nh x k) m1 j hj hhj hneh
                obtain ⟨p, hp⟩ :=
                  hU q3 (S.nh x k) m1 hhj hfin (by omega) hvh hq3
                exact hprep x p hxj (by rw [hnx]; exact hp)
    intro x hx hxj hne hD
    by_cases hG : S.d x k ≠ INF ∧ S.d k j ≠ INF ∧ S.d x k + S.d k j < S.d x j
    · have hxk : x ≠ k := by
        intro he
        obtain ⟨_, _, hlt⟩ := hG
        rw [he, h1 k] at hlt
        omega
      obtain ⟨q, hq⟩ := hre x hx k hk hxk hG.1
      exact hI q x hx hxj hne hD hG hq
    · have hvx : (pivot N S k).d x j = S.d x j := by
        rw [fd x hx]
        unfold relaxVal
        rw [if_neg hG]
      have hnex : S.d x j ≠ INF := by rw [← hvx]; exact hne
      obtain ⟨q, hq⟩ := hre x hx j hj hxj hnex
      exact hU q x hx hxj hne hD hvx hq
  suffices H : ∀ n, ∀ x, x ∈ rng N → x ≠ j → (pivot N S k).d x j ≠ INF →
      (pivot N S k).d x j ≤ n → ∃ p, NhReaches (pivot N S k).nh j x p by
    intro hij hne
    exact H ((pivot N S k).d i j) i hi hij hne (Nat.le_refl _)
  intro n
  induction n with
  | zero =>
    exact step 0 (fun y _ _ _ hlt => absurd hlt (Nat.not_lt_zero _))
  | succ n ihn =>
    exact step (n + 1) (fun y hy hyj hyne hlt => ihn y hy hyj hyne (by omega))

/-- Folding the remaining pivot passes keeps the invariant and extends
the processed-pivot set by all of them. -/
theorem fw_fold_good (N : Nat) (B : Mat) :
    ∀ (ms K : List Nat) (S : FWState),
      (∀ m ∈ ms, m ∈ rng N) →
      GoodInv N B S → TriK N S K →
      GoodInv N B (ms.foldl (pivot N) S) ∧
      TriK N (ms.foldl (pivot N) S) (ms ++ K) := by
  intro ms
  induction ms with
  | nil =>
    intro K S _ hg ht
    exact ⟨hg, ht⟩
  | cons m ms ih =>
    intro K S hmem hg ht
    obtain ⟨hg2, ht2⟩ :=
      pivot_good N B S K m (hmem m (List.mem_cons_self m ms)) hg ht
    obtain ⟨g3, t3⟩ := ih (m :: K) (pivot N S m)
      (fun a ha => hmem a (List.mem_cons_of_mem m ha)) hg2 ht2
    rw [List.foldl_cons]
    refine ⟨g3, ?_⟩
    intro k hk
    refine t3 k ?_
    rcases List.mem_cons.mp hk with he | hk2
    · exact List.mem_append.mpr (Or.inr (by rw [he]; exact List.mem_cons_self m K))
    · rcases List.mem_append.mp hk2 with h | h
      · exact List.mem_append.mpr (Or.inl h)
      · exact List.mem_append.mpr (Or.inr (List.mem_cons_of_mem m h))

/-- After `floydWarshall()` runs in `main`, the invariant holds and the
triangle inequality is closed under every in-range pivot. -/
theorem fw_good (inp : Input) :
    GoodInv inp.N (baseDist inp) (fwResult inp) ∧
    TriK inp.N (fwResult inp) (rng inp.N) := by
  have hg0 : GoodInv inp.N (baseDist inp) { d := baseDist inp, nh := nh0 } := by
    refine ⟨readEdges_diag inp.edges, fun i j => Nat.le_refl _,
      readEdges_le inp.edges, ?_⟩
    intro i hi j hj hij hne
    refine ⟨hj, Ne.symm hij, hne, ?_⟩
    show baseDist inp i j + baseDist inp j j ≤ baseDist inp i j
    have hz : baseDist inp j j = 0 := readEdges_diag inp.edges j
    omega
  obtain ⟨g, t⟩ := fw_fold_good inp.N (baseDist inp) (rng inp.N) []
    { d := baseDist inp, nh := nh0 } (fun m hm => hm) hg0
    (fun k hk => absurd hk (List.not_mem_nil k))
  refine ⟨g, ?_⟩
  intro k hk
  exact t k (List.mem_append.mpr (Or.inl hk))

/-- Folding the remaining pivot passes preserves termination of the
`next_hop` walk for every reachable in-range pair. -/
theorem fw_fold_reach (N : Nat) (B : Mat) :
    ∀ (ms : List Nat) (S : FWState),
      (∀ m ∈ ms, m ∈ rng N) →
      GoodInv N B S →
      (∀ i ∈ rng N, ∀ j ∈ rng N, i ≠ j → S.d i j ≠ INF →
        ∃ p, NhReaches S.nh j i p) →
      ∀ i ∈ rng N, ∀ j ∈ rng N, i ≠ j → (ms.foldl (pivot N) S).d i j ≠ INF →
        ∃ p, NhReaches (ms.foldl (pivot N) S).nh j i p := by
  intro ms
  induction ms with
  | nil =>
    intro S _ _ hre
    exact hre
  | cons m ms ih =>
    intro S hmem hg hre
    rw [List.foldl_cons]
    have hg2 : GoodInv N B (pivot N S m) :=
      (pivot_good N B S [] m (hmem m (List.mem_cons_self m ms)) hg
        (fun a ha => absurd ha (List.not_mem_nil a))).1
    exact ih (pivot N S m) (fun a ha => hmem a (List.mem_cons_of_mem m ha)) hg2
      (pivot_reach N B S m (hmem m (List.mem_cons_self m ms))
        ⟨hg.1, hg.2.1, hg.2.2.1, hg.2.2.2⟩ hre)

/-- After `floydWarshall()` runs in `main`, following `next_hop` from any
in-range node with a finite distance entry terminates at the target —
with no assumption on link costs. -/
theorem fw_reach (inp : Input) :
    ∀ i ∈ rng inp.N, ∀ j ∈ rng inp.N, i ≠ j → (fwResult inp).d i j ≠ INF →
      ∃ p, NhReaches (fwResult inp).nh j i p := by
  have hg0 : GoodInv inp.N (baseDist inp) { d := baseDist inp, nh := nh0 } := by
    refine ⟨readEdges_diag inp.edges, fun i j => Nat.le_refl _,
      readEdges_le inp.edges, ?_⟩
    intro i hi j hj hij hne
    refine ⟨hj, Ne.symm hij, hne, ?_⟩
    show baseDist inp i j + baseDist inp j j ≤ baseDist inp i j
    have hz : baseDist inp j j = 0 := readEdges_diag inp.edges j
    omega
  have hre0 : ∀ i ∈ rng inp.N, ∀ j ∈ rng inp.N, i ≠ j →
      ({ d := baseDist inp, nh := nh0 } : FWState).d i j ≠ INF →
      ∃ p, NhReaches ({ d := baseDist inp, nh := nh0 } : FWState).nh j i p := by
    intro i _ j _ hij _
    exact ⟨_, NhReaches.step i [] hij NhReaches.done⟩
  unfold fwResult floydWarshall
  exact fw_fold_reach inp.N (baseDist inp) (rng inp.N) _ (fun m hm => hm)
    hg0 hre0

/-- At the final state, any `next_hop` trace steps only across finite
direct links between distinct nodes and its direct-cost sum telescopes
to the distance entry (routing soundness gives one inequality, the full
triangle inequality plus the direct-cost bound the other). -/
theorem trace_cost (N : Nat) (B : Mat) (S : FWState)
    (hg : GoodInv N B S) (ht : TriK N S (rng N)) :
    ∀ (p : List Nat) (i j : Nat), i ∈ rng N → j ∈ rng N →
      NhReaches S.nh j i p → S.d i j ≠ INF →
      List.Chain' (fun a b => a ≠ b ∧ B a b ≠ INF) (i :: p) ∧
      pathCost B (i :: p) = S.d i j := by
  obtain ⟨h1, h2, h3, h4⟩ := hg
  intro p
  induction p with
  | nil =>
    intro i j hi hj htr hne
    cases htr
    exact ⟨List.chain'_singleton _, (h1 _).symm⟩
  | cons h0 q ih =>
    intro i j hi hj htr hne
    cases htr with
    | step _ _ h5 htail =>
      obtain ⟨m1, m2, m3, m4⟩ := h4 i hi j hj h5 hne
      have htri : S.d i j ≤ S.d i (S.nh i j) + S.d (S.nh i j) j :=
        ht (S.nh i j) m1 i hi j hj
      have hdb : S.d i (S.nh i j) ≤ B i (S.nh i j) := h2 i (S.nh i j)
      have heq : B i (S.nh i j) + S.d (S.nh i j) j = S.d i j := by omega
      have hne2 : S.d (S.nh i j) j ≠ INF := by
        have h6 : S.d i j ≤ INF := h3 i j
        omega
      obtain ⟨hch, hcost⟩ := ih (S.nh i j) j m1 hj htail hne2
      refine ⟨?_, ?_⟩
      · rw [List.chain'_cons]
        exact ⟨⟨Ne.symm m2, m3⟩, hch⟩
      · show B i (S.nh i j) + pathCost B (S.nh i j :: q) = S.d i j
        rw [hcost]
        exact heq

/-- C2 — After `floydWarshall` completes, for every pair of node ids
`i, j` in `[1, N]`: `dist[i][i] = 0`; the triangle inequality
`dist[i][j] ≤ dist[i][k] + dist[k][j]` holds for every in-range pivot
`k`; and for every reachable pair (`dist[i][j] < INF`) repeatedly
following `next_hop` from `i` terminates at `j`, traverses only links
present in the input, and the sum of the traversed direct link costs
equals `dist[i][j]` — for every input, zero-cost links included. -/
theorem claim_C2 (inp : Input) :
    (∀ i ∈ rng inp.N, (fwResult inp).d i i = 0) ∧
    (∀ i ∈ rng inp.N, ∀ j ∈ rng inp.N, ∀ k ∈ rng inp.N,
      (fwResult inp).d i j ≤ (fwResult inp).d i k + (fwResult inp).d k j) ∧
    (∀ i ∈ rng inp.N, ∀ j ∈ rng inp.N, (fwResult inp).d i j < INF →
      ∃ p, NhReaches (fwResult inp).nh j i p ∧
        List.Chain' (LinkPred inp.edges) (i :: p) ∧
        pathCost (baseDist inp) (i :: p) = (fwResult inp).d i j) := by
  obtain ⟨g, t⟩ := fw_good inp
  refine ⟨fun i _ => g.1 i, fun i hi j hj k hk => t k hk i hi j hj, ?_⟩
  intro i hi j hj hlt
  by_cases hij : i = j
  · subst hij
    exact ⟨[], NhReaches.done, List.chain'_singleton i, (g.1 i).symm⟩
  · obtain ⟨p, hp⟩ := fw_reach inp i hi j hj hij (Nat.ne_of_lt hlt)
    obtain ⟨hch, hcost⟩ := trace_cost inp.N (baseDist inp) (fwResult inp) g t
      p i j hi hj hp (Nat.ne_of_lt hlt)
    exact ⟨p, hp,
      List.Chain'.imp
        (fun a b hab => readEdges_link inp.edges a b hab.1 hab.2) hch,
      hcost⟩

/-- Witness for C2 on the concrete 2-node input: the claim yields the
zero diagonal at node 1. -/
theorem claim_C2_witness : (fwResult inpW).d 1 1 = 0 :=
  (claim_C2 inpW).1 1 (by decide)

/-- Witness for C10 on the concrete 2-node input with one cooling draw:
the task the pipeline returns has a reachable assignment. -/
theorem claim_C10_witness :
    (fwResult inpW).d
      ((finalAlloc inpW [mvCool]).tasks.getD 0 default).start_node
      ((finalAlloc inpW [mvCool]).tasks.getD 0 default).end_node < INF :=
  claim_C10 inpW [mvCool] _ (by decide)

end ClusterLB
